import Mathlib

/-!
Verification of misc1.cpp: `Vector<T>`, `String`, `print`, `main`.

A shallow embedding of `src/misc1.cpp` over an explicit memory: heap arrays
(`new T[n]` / `delete[]`), a store of `Vector<T>` objects addressed by identity
(`this`, `&v`), pointers as array address plus element offset, and the two
outcomes of a C++ statement that matter here (normal completion, a thrown
exception) plus undefined behaviour.

Platform assumptions (LP64): `int` is 32 bits, two's complement; `size_t` is
wider than `int`.
-/

namespace Misc1

/-! ## Memory model -/

/-- Exceptions of the program: `std::bad_alloc` (what `new` throws), anything else. -/
inductive Exn where
  | bad_alloc
  | unknown
  deriving DecidableEq, Repr

/-- A `T*` / iterator / `T&`: the address of an array and an element offset in it. -/
structure Ptr where
  blk : Nat
  off : Int
  deriving DecidableEq, Repr

/-- Pointer arithmetic `p + k`. -/
def Ptr.add (p : Ptr) (k : Int) : Ptr := ⟨p.blk, p.off + k⟩

instance : HAdd Ptr Int Ptr := ⟨Ptr.add⟩

/-- The data members of `class Vector<T>`: `T *p; int n;`. -/
structure Vector where
  p : Ptr
  n : Int
  deriving DecidableEq, Repr

/-- The element type `T` of the templates: its value-initialisation `T()` and
its stream insertion `out << x` (the characters written). -/
class Elem (T : Type) where
  dflt : T
  shw : T → List Char

/-- The element type `int`: `int()` is `0`, `out << i` writes the decimal digits. -/
instance : Elem Int := ⟨0, fun i => (toString i).toList⟩

/-- The element type `char`: `char()` is `'\0'`, `out << c` writes the character. -/
instance : Elem Char := ⟨Char.ofNat 0, fun c => [c]⟩

/-- Program memory over element type `T`.
* `arrays`: arrays of `T` by address; `none` once released by `delete[]`.
* `objs`: `Vector<T>` objects by address; `none` once destroyed.
* `avail`: number of elements `new` can still provide.
* `junk`: the indeterminate contents of storage freshly obtained from `new`.
* `news`, `deletes`: how many `new T[..]` succeeded, how many `delete[]` ran. -/
structure Mem (T : Type) where
  arrays : List (Option (List T))
  objs : List (Option Vector)
  avail : Nat
  junk : Nat → T
  news : Nat
  deletes : Nat

/-- Outcome of running a statement: normal completion with a value, an
exception in flight, or undefined behaviour. The first two carry the memory. -/
inductive Res (T : Type) (α : Type) where
  | ok : α → Mem T → Res T α
  | throw : Exn → Mem T → Res T α
  | ub : Res T α

/-- A statement or expression with side effects on memory. -/
def Prog (T : Type) (α : Type) : Type := Mem T → Res T α

/-- Sequencing of statements: an exception or undefined behaviour ends the run. -/
def Prog.bind {T α β : Type} (x : Prog T α) (f : α → Prog T β) : Prog T β :=
  fun m =>
    match x m with
    | .ok a m1 => f a m1
    | .throw e m1 => .throw e m1
    | .ub => .ub

instance {T : Type} : Monad (Prog T) where
  pure a := fun m => .ok a m
  bind := Prog.bind

/-- Evaluate a side-effect free expression; `none` is undefined behaviour. -/
def rd {T α : Type} (f : Mem T → Option α) : Prog T α :=
  fun m =>
    match f m with
    | some a => .ok a m
    | none => .ub

/-- The live object at address `a`. -/
def Mem.obj {T : Type} (m : Mem T) (a : Nat) : Option Vector :=
  match m.objs[a]? with
  | some (some v) => some v
  | _ => none

/-- The live array at address `b`. -/
def Mem.arr {T : Type} (m : Mem T) (b : Nat) : Option (List T) :=
  match m.arrays[b]? with
  | some (some a) => some a
  | _ => none

/-- The expression `new T[n]`: throws `bad_alloc` when more is asked than is
available (a negative `n` throws `bad_array_new_length`, which is a `bad_alloc`);
otherwise a fresh array of `n` elements with indeterminate contents. -/
def newArr {T : Type} (n : Int) : Prog T Ptr :=
  fun m =>
    if n < 0 then .throw .bad_alloc m
    else if m.avail < n.toNat then .throw .bad_alloc m
    else .ok ⟨m.arrays.length, 0⟩
      { m with
        arrays := m.arrays ++ [some ((List.range n.toNat).map m.junk)]
        avail := m.avail - n.toNat
        news := m.news + 1 }

/-- The statement `delete[] p`: `p` must be what `new T[..]` returned and not
yet released. -/
def deleteArr {T : Type} (p : Ptr) : Prog T Unit :=
  fun m =>
    match m.arr p.blk with
    | some a =>
      if p.off = 0 then
        .ok () { m with
                 arrays := m.arrays.set p.blk none
                 avail := m.avail + a.length
                 deletes := m.deletes + 1 }
      else .ub
    | none => .ub

/-- Read through a pointer or reference: `*r` as an rvalue. -/
def load {T : Type} (m : Mem T) (r : Ptr) : Option T :=
  if r.off < 0 then none
  else
    match m.arr r.blk with
    | some a => a[r.off.toNat]?
    | none => none

/-- Write through a pointer or reference: `*r = x`. -/
def store {T : Type} (r : Ptr) (x : T) : Prog T Unit :=
  fun m =>
    if r.off < 0 then .ub
    else
      match m.arr r.blk with
      | some a =>
        if r.off.toNat < a.length then
          .ok () { m with arrays := m.arrays.set r.blk (some (a.set r.off.toNat x)) }
        else .ub
      | none => .ub

/-- Assignment to the data members of the object at `this`. -/
def setObj {T : Type} (this : Nat) (f : Vector → Vector) : Prog T Unit :=
  fun m =>
    match m.obj this with
    | some v => .ok () { m with objs := m.objs.set this (some (f v)) }
    | none => .ub

/-- The counted loop `for (int i = from; i < from + k; ++i) body(i)`, by the
number `k` of iterations left. -/
def loopFrom {T : Type} (body : Int → Prog T Unit) : Nat → Int → Prog T Unit
  | 0, _ => pure ()
  | k + 1, i => do
    body i
    loopFrom body k (i + 1)

/-- The loop `for (int i = 0; i < n; ++i) body(i)`. -/
def forInt {T : Type} (n : Int) (body : Int → Prog T Unit) : Prog T Unit :=
  loopFrom body n.toNat 0

/-- The loop of `std::copy`, `while (begin != end) *dest++ = *begin++;`, by the
distance from `begin` to `end`. -/
def copyLoop {T : Type} : Nat → Ptr → Ptr → Prog T Ptr
  | 0, _, dest => pure dest
  | k + 1, first, dest => do
    let x ← rd (fun m => load m first)
    store dest x
    copyLoop k (first + (1 : Int)) (dest + (1 : Int))

/-- The algorithm `std::copy(begin, end, dest)` on pointers; `[begin, end)` must
be a range of one array. -/
def copy {T : Type} (first last dest : Ptr) : Prog T Ptr :=
  if first.blk = last.blk ∧ first.off ≤ last.off then
    copyLoop (last.off - first.off).toNat first dest
  else fun _ => .ub

/-! ## class Vector -/

/-- Member `int size() const {return n;}`. -/
def Vector.size {T : Type} (m : Mem T) (this : Nat) : Option Int :=
  (m.obj this).map (fun v => v.n)

/-- Member `T& operator[](int i) {return p[i];}` and its `const` overload: the
reference `p[i]`. -/
def Vector.index {T : Type} (m : Mem T) (this : Nat) (i : Int) : Option Ptr :=
  (m.obj this).map (fun v => v.p + i)

/-- Member `iterator begin() {return p;}` and its `const` overload. -/
def Vector.begin {T : Type} (m : Mem T) (this : Nat) : Option Ptr :=
  (m.obj this).map (fun v => v.p)

/-- Member `iterator end() {return p+n;}` and its `const` overload. -/
def Vector.end_ {T : Type} (m : Mem T) (this : Nat) : Option Ptr :=
  (m.obj this).map (fun v => v.p + v.n)

/-- The rvalue `v[i]`. -/
def Vector.read {T : Type} (m : Mem T) (this : Nat) (i : Int) : Option T :=
  (Vector.index m this i).bind (load m)

/-- The statement `v[i] = x;` through the non-const `operator[]`. -/
def Vector.write {T : Type} (this : Nat) (i : Int) (x : T) : Prog T Unit := do
  let r ← rd (fun m => Vector.index m this i)
  store r x

/-- The statement `*it = x;` through a mutable iterator. -/
def iterWrite {T : Type} (it : Ptr) (x : T) : Prog T Unit := store it x

/-- Bring a new object with the given members to life; its address is returned. -/
def newObj {T : Type} (v : Vector) : Prog T Nat :=
  fun m => .ok m.objs.length { m with objs := m.objs ++ [some v] }

/-- Constructor `Vector<T>::Vector(int i): p(new T[i]), n(i)`
`{ for (int i=0; i<n; ++i) p[i] = T(); }` -/
def Vector.ctor {T : Type} [Elem T] (i : Int) : Prog T Nat := do
  let p ← newArr i
  let n := i
  forInt n (fun k => store (p + k) Elem.dflt)
  newObj ⟨p, n⟩

/-- Copy constructor `Vector<T>::Vector(const Vector<T>& v): p(new T[v.size()]), n(v.size())`
`{ copy(v.p, v.p+n, p); }` -/
def Vector.copy_ctor {T : Type} (v : Nat) : Prog T Nat := do
  let p ← newArr (← rd (fun m => Vector.size m v))
  let n ← rd (fun m => Vector.size m v)
  let vp ← rd (fun m => Vector.begin m v)
  let _ ← copy vp (vp + n) p
  newObj ⟨p, n⟩

/-- Assignment `Vector<T>& Vector<T>::operator = (const Vector<T>& v)`: unless `&v == this`,
`delete[] p; n = v.n; p = new T[n]; copy(v.p, v.p+n, p);` and in all cases
`return *this;`. -/
def Vector.assign {T : Type} (this v : Nat) : Prog T Nat := do
  if v ≠ this then
    deleteArr (← rd (fun m => Vector.begin m this))
    let vn ← rd (fun m => Vector.size m v)
    setObj this (fun o => { o with n := vn })
    let q ← newArr (← rd (fun m => Vector.size m this))
    setObj this (fun o => { o with p := q })
    let vp ← rd (fun m => Vector.begin m v)
    let n ← rd (fun m => Vector.size m this)
    let _ ← copy vp (vp + n) (← rd (fun m => Vector.begin m this))
  return this

/-- Destructor `~Vector() {delete[] p;}`, after which the object is gone. -/
def Vector.dtor {T : Type} (this : Nat) : Prog T Unit := do
  deleteArr (← rd (fun m => Vector.begin m this))
  fun m => .ok () { m with objs := m.objs.set this none }

/-! ## print -/

/-- The loop of `print`, by the number of iterations left: `if (i > 0) out << sep;`
`out << v[i];`. -/
def printLoop {T : Type} [Elem T] (m : Mem T) (v : Nat) (sep : List Char) :
    Nat → Int → List Char → Option (List Char)
  | 0, _, out => some out
  | k + 1, i, out =>
    let out1 := if i > 0 then out ++ sep else out
    match Vector.read m v i with
    | some x => printLoop m v sep k (i + 1) (out1 ++ Elem.shw x)
    | none => none

/-- Function `void print(ostream& out, const Vector<T>& v, const char* sep = "")`: the
characters on `out` afterwards; `sep` is the text the C string holds (a call
without it passes the empty text). -/
def print {T : Type} [Elem T] (m : Mem T) (out : List Char) (v : Nat)
    (sep : List Char) : Option (List Char) :=
  match Vector.size m v with
  | some n => printLoop m v sep n.toNat 0 out
  | none => none

/-! ## class String -/

/-- Library `strlen(cp)`: the number of chars before the first NUL from `cp` on; reading
past the end of the array is undefined. -/
def strlen (m : Mem Char) (cp : Ptr) : Option Nat :=
  if cp.off < 0 then none
  else
    match m.arr cp.blk with
    | some a =>
      let s := a.drop cp.off.toNat
      let k := s.findIdx (fun c => c == Char.ofNat 0)
      if k < s.length then some k else none
    | none => none

/-- Conversion of a `size_t` to `int`: reduction modulo `2^32` into the signed
range. -/
def toInt32 (x : Nat) : Int :=
  if x % 2 ^ 32 < 2 ^ 31 then ((x % 2 ^ 32 : Nat) : Int)
  else ((x % 2 ^ 32 : Nat) : Int) - 2 ^ 32

/-- Constructor `String::String(const char* cp): Vector<char>(strlen(cp))`
`{ copy(cp, cp+size(), begin()); }` -/
def String_ctor (cp : Ptr) : Prog Char Nat := do
  let len ← rd (fun m => strlen m cp)
  let this ← Vector.ctor (toInt32 len)
  let n ← rd (fun m => Vector.size m this)
  let _ ← copy cp (cp + n) (← rd (fun m => Vector.begin m this))
  return this

/-- Operator `ostream& operator << (ostream& out, const String& s)`, which is
`{ print(out, s); return out; }`. -/
def operator_shl (m : Mem Char) (out : List Char) (s : Nat) : Option (List Char) :=
  print m out s []

/-! ## Sequences -/

/-- A sequence: the live object at `a` has members `v` and owns the live array
`buf`, whose element count is the recorded `n`. -/
def IsSeq {T : Type} (m : Mem T) (a : Nat) (v : Vector) (buf : List T) : Prop :=
  m.obj a = some v ∧ v.p.off = 0 ∧ m.arr v.p.blk = some buf ∧ (buf.length : Int) = v.n

/-! ## Concrete memories -/

/-- One `Vector<int>` at address 0 holding `10, 20`. -/
def memA : Mem Int :=
  { arrays := [some [10, 20]], objs := [some ⟨⟨0, 0⟩, 2⟩], avail := 5,
    junk := fun k => 77 + (k : Int), news := 1, deletes := 0 }

/-- Two `Vector<int>`: at address 0 holding `10, 20`, at address 1 holding `7, 8, 9`. -/
def memB : Mem Int :=
  { arrays := [some [10, 20], some [7, 8, 9]],
    objs := [some ⟨⟨0, 0⟩, 2⟩, some ⟨⟨1, 0⟩, 3⟩], avail := 5,
    junk := fun k => 77 + (k : Int), news := 2, deletes := 0 }

/-- No object, no array, room for 8 elements. -/
def memE : Mem Int :=
  { arrays := [], objs := [], avail := 8, junk := fun k => 77 + (k : Int),
    news := 0, deletes := 0 }

/-- The array `"Hello world"` (with its terminator) at address 0, no object. -/
def memHello : Mem Char :=
  { arrays := [some ("Hello world".toList ++ [Char.ofNat 0])], objs := [], avail := 64,
    junk := fun _ => 'j', news := 0, deletes := 0 }

/-- A run of `2^32` letters. -/
def bigSrc : List Char := List.replicate (2 ^ 32) 'a'

/-- The NUL-terminated array of `2^32` letters at address 0, no object, room
for `2^33` elements. -/
def memBig : Mem Char :=
  { arrays := [some (bigSrc ++ [Char.ofNat 0])], objs := [], avail := 2 ^ 33,
    junk := fun _ => 'j', news := 0, deletes := 0 }

/-- The client code `v[i] = xs[0]; v[i+1] = xs[1]; ...`: each element of `xs`
stored through the non-const `operator[]`, from index `i` on. -/
def writeFrom {T : Type} (v : Nat) : List T → Int → Prog T Unit
  | [], _ => pure ()
  | x :: xs, i => do
    Vector.write v i x
    writeFrom v xs (i + 1)

/-! ## Representation invariant and reachable memories -/

/-- The representation invariant: every live object owns a live array whose
element count is its recorded `n`, and no two live objects own the same array. -/
def Inv {T : Type} (m : Mem T) : Prop :=
  (∀ a v, m.obj a = some v → ∃ buf, IsSeq m a v buf) ∧
  (∀ a b va vb, m.obj a = some va → m.obj b = some vb → a ≠ b → va.p.blk ≠ vb.p.blk)

/-- What a run of stores changes: no object, no array length, no liveness. -/
def StoreOnly {T : Type} (m m' : Mem T) : Prop :=
  m'.objs = m.objs ∧ ∀ b, (m'.arr b).map List.length = (m.arr b).map List.length

/-- Memories reachable from a memory without objects by successful runs of the
constructors (`Vector(int)`, the copy constructor, `String(const char*)`), of
`operator=`, of writes through `operator[]` or through a mutable iterator, and
of the destructor. -/
inductive Reachable : {T : Type} → [Elem T] → Mem T → Prop
  | init {T : Type} [Elem T] (m : Mem T) : m.objs = [] → Reachable m
  | create {T : Type} [Elem T] {m m' : Mem T} (i : Int) (a : Nat) :
      Reachable m → Vector.ctor i m = .ok a m' → Reachable m'
  | copy {T : Type} [Elem T] {m m' : Mem T} (v a : Nat) :
      Reachable m → Vector.copy_ctor v m = .ok a m' → Reachable m'
  | from_bytes {m m' : Mem Char} (cp : Ptr) (a : Nat) :
      Reachable m → String_ctor cp m = .ok a m' → Reachable m'
  | assign {T : Type} [Elem T] {m m' : Mem T} (this v r : Nat) :
      Reachable m → Vector.assign this v m = .ok r m' → Reachable m'
  | write {T : Type} [Elem T] {m m' : Mem T} (a : Nat) (i : Int) (x : T) :
      Reachable m → Vector.write a i x m = .ok () m' → Reachable m'
  | iter_write {T : Type} [Elem T] {m m' : Mem T} (it : Ptr) (x : T) :
      Reachable m → iterWrite it x m = .ok () m' → Reachable m'
  | destroy {T : Type} [Elem T] {m m' : Mem T} (a : Nat) :
      Reachable m → Vector.dtor a m = .ok () m' → Reachable m'

/-- The memory after `Vector<int> v(2);` in `memE`. -/
def memE2 : Mem Int :=
  { arrays := [some [0, 0]], objs := [some ⟨⟨0, 0⟩, 2⟩], avail := 6,
    junk := fun k => 77 + (k : Int), news := 1, deletes := 0 }

/-! ## Client code: chained assignment, traversal, the demo `main` -/

/-- The statement `a = b = c;`, that is `a.operator=(b.operator=(c))`: the inner
assignment runs first and what it returns is the source of the outer one. -/
def chainAssign {T : Type} (a b c : Nat) : Prog T Nat := do
  let r ← Vector.assign b c
  Vector.assign a r

/-- Pointer difference `p - q`, defined for two pointers into one array. -/
def Ptr.sub (p q : Ptr) : Option Int :=
  if p.blk = q.blk then some (p.off - q.off) else none

/-- The loop `for (; it != last; ++it) visit(*it);` by the distance from `it`
to `last`: the elements read, in the order visited. -/
def visitLoop {T : Type} : Nat → Ptr → Prog T (List T)
  | 0, _ => pure []
  | k + 1, it => do
    let x ← rd (fun m => load m it)
    let xs ← visitLoop k (it + (1 : Int))
    pure (x :: xs)

/-- The traversal of a range `[first, last)` of one array. -/
def visit {T : Type} (first last : Ptr) : Prog T (List T) :=
  if first.blk = last.blk ∧ first.off ≤ last.off then
    visitLoop (last.off - first.off).toNat first
  else fun _ => .ub

/-- The traversal `for (it = v.begin(); it != v.end(); ++it) visit(*it);`, with
either overload of `begin` and `end`. -/
def Vector.traverse {T : Type} (v : Nat) : Prog T (List T) := do
  let first ← rd (fun m => Vector.begin m v)
  let last ← rd (fun m => Vector.end_ m v)
  visit first last

/-- The `try` block of `main` over the construction of the greeting, with `cout`
as the characters written so far: `const String greeting = ...;` then
`cout << greeting << endl;` then, at the end of the block, the destruction of
`greeting`. The result is `cout` and the outcome of the block. -/
def main_try (construct : Prog Char Nat) (out : List Char) (m : Mem Char) :
    List Char × Res Char Unit :=
  match construct m with
  | .ok greeting m1 =>
    match operator_shl m1 out greeting with
    | some out1 => (out1 ++ [Char.ofNat 10], Vector.dtor greeting m1)
    | none => (out, .ub)
  | .throw e m1 => (out, .throw e m1)
  | .ub => (out, .ub)

/-- The body of `main` over the construction of the greeting: the `try` block,
then `catch (bad_alloc x)`, which writes `Out of memory` and a newline, or
`catch (...)`, which writes `Unknown exception` and a newline and rethrows;
`return 0;` is reached unless the exception was rethrown. The result is `cout`
and the outcome of `main`. -/
def main_with (construct : Prog Char Nat) (out : List Char) (m : Mem Char) :
    List Char × Res Char Int :=
  match main_try construct out m with
  | (o, .ok _ m1) => (o, .ok 0 m1)
  | (o, .throw .bad_alloc m1) => (o ++ "Out of memory".toList ++ [Char.ofNat 10], .ok 0 m1)
  | (o, .throw e m1) => (o ++ "Unknown exception".toList ++ [Char.ofNat 10], .throw e m1)
  | (o, .ub) => (o, .ub)

/-- The function `int main()`: the greeting is constructed by
`const String greeting = "Hello world";`, with the literal at `lit`. -/
def main (lit : Ptr) (out : List Char) (m : Mem Char) : List Char × Res Char Int :=
  main_with (String_ctor lit) out m

/-- The memory `memB` when `new` has nothing left to give. -/
def memC : Mem Int :=
  { arrays := [some [10, 20], some [7, 8, 9]],
    objs := [some ⟨⟨0, 0⟩, 2⟩, some ⟨⟨1, 0⟩, 3⟩], avail := 0,
    junk := fun k => 77 + (k : Int), news := 2, deletes := 0 }

/-- The memory `memB` after `Vector<int> w(1);`: a third sequence, at address 2,
holding `0`. -/
def memD : Mem Int :=
  { arrays := [some [10, 20], some [7, 8, 9], some [0]],
    objs := [some ⟨⟨0, 0⟩, 2⟩, some ⟨⟨1, 0⟩, 3⟩, some ⟨⟨2, 0⟩, 1⟩], avail := 4,
    junk := fun k => 77 + (k : Int), news := 3, deletes := 0 }

section Lemmas
variable {T α β : Type}

/-! ## Reasoning about runs -/

theorem bind_ok {x : Prog T α} {f : α → Prog T β} {m n : Mem T} {a : α}
    (h : x m = .ok a n) : (x >>= f) m = f a n := by
  show Prog.bind x f m = _
  simp [Prog.bind, h]

theorem bind_throw {x : Prog T α} {f : α → Prog T β} {m n : Mem T} {e : Exn}
    (h : x m = .throw e n) : (x >>= f) m = .throw e n := by
  show Prog.bind x f m = _
  simp [Prog.bind, h]

theorem pure_run (a : α) (m : Mem T) : (pure a : Prog T α) m = .ok a m := rfl

theorem rd_some {f : Mem T → Option α} {m : Mem T} {a : α} (h : f m = some a) :
    rd f m = .ok a m := by
  simp [rd, h]

theorem arr_iff {m : Mem T} {b : Nat} {a : List T} :
    m.arr b = some a ↔ m.arrays[b]? = some (some a) := by
  unfold Mem.arr
  split <;> simp_all

theorem obj_iff {m : Mem T} {a : Nat} {v : Vector} :
    m.obj a = some v ↔ m.objs[a]? = some (some v) := by
  unfold Mem.obj
  split <;> simp_all

theorem set_same {γ : Type} {l : List γ} {b : Nat} {x : γ} (h : l[b]? = some x) :
    l.set b x = l := by
  apply List.ext_getElem?
  intro i
  by_cases hib : b = i
  · subst hib
    rw [List.getElem?_set_self (by
      by_contra hc
      simp [List.getElem?_eq_none (Nat.le_of_not_lt hc)] at h), h]
  · rw [List.getElem?_set_ne hib]

theorem lt_of_get {γ : Type} {l : List γ} {b : Nat} {x : γ} (h : l[b]? = some x) :
    b < l.length := by
  by_contra hc
  simp [List.getElem?_eq_none (Nat.le_of_not_lt hc)] at h

theorem newArr_ok {m : Mem T} {n : Int} (h0 : 0 ≤ n) (h : n.toNat ≤ m.avail) :
    newArr n m = .ok ⟨m.arrays.length, 0⟩
      { m with
        arrays := m.arrays ++ [some ((List.range n.toNat).map m.junk)]
        avail := m.avail - n.toNat
        news := m.news + 1 } := by
  unfold newArr
  rw [if_neg (by omega), if_neg (by omega)]

theorem load_ok {m : Mem T} {b : Nat} {a : List T} (h : m.arrays[b]? = some (some a))
    (i : Nat) : load m ⟨b, (i : Int)⟩ = a[i]? := by
  unfold load
  simp [arr_iff.mpr h]

theorem store_ok {m : Mem T} {b : Nat} {a : List T} (h : m.arrays[b]? = some (some a))
    {i : Nat} (hi : i < a.length) (x : T) :
    store ⟨b, (i : Int)⟩ x m
      = .ok () { m with arrays := m.arrays.set b (some (a.set i x)) } := by
  unfold store
  simp [arr_iff.mpr h, hi]

theorem ptr_add (b : Nat) (i j : Int) : ((⟨b, i⟩ : Ptr) + j) = ⟨b, i + j⟩ := rfl

theorem loopFrom_fill (b : Nat) (d : T) :
    ∀ (k : Nat) (m : Mem T) (pre rest : List T),
      m.arrays[b]? = some (some (pre ++ rest)) → rest.length = k →
      loopFrom (fun j => store ((⟨b, 0⟩ : Ptr) + j) d) k (pre.length : Int) m
        = .ok () { m with arrays := m.arrays.set b (some (pre ++ List.replicate k d)) }
  | 0, m, pre, rest, h, hk => by
    have : rest = [] := List.length_eq_zero.mp hk
    subst this
    simp only [loopFrom, pure_run, List.replicate_zero]
    rw [set_same h]
  | k + 1, m, pre, rest, h, hk => by
    obtain ⟨x, rest1, rfl⟩ : ∃ x r, rest = x :: r := by
      cases rest with
      | nil => simp at hk
      | cons x r => exact ⟨x, r, rfl⟩
    have hlen : rest1.length = k := by simpa using hk
    have hst := store_ok h (i := pre.length) (by simp) d
    have hb := lt_of_get h
    rw [loopFrom, bind_ok (n := { m with arrays := m.arrays.set b (some ((pre ++ x :: rest1).set pre.length d)) })
      (by simpa [ptr_add] using hst)]
    have hset : (pre ++ x :: rest1).set pre.length d = (pre ++ [d]) ++ rest1 := by
      simp
    have := loopFrom_fill b d k
      { m with arrays := m.arrays.set b (some ((pre ++ x :: rest1).set pre.length d)) }
      (pre ++ [d]) rest1 (by simp [List.getElem?_set_self hb]) hlen
    simp only [List.length_append, List.length_singleton, Nat.cast_add, Nat.cast_one] at this
    rw [this]
    simp [List.set_set, List.replicate_succ]

theorem ctor_ok [Elem T] {m : Mem T} {i : Int} (h0 : 0 ≤ i) (h : i.toNat ≤ m.avail) :
    Vector.ctor i m = .ok m.objs.length
      { m with
        arrays := m.arrays ++ [some (List.replicate i.toNat Elem.dflt)]
        objs := m.objs ++ [some ⟨⟨m.arrays.length, 0⟩, i⟩]
        avail := m.avail - i.toNat
        news := m.news + 1 } := by
  unfold Vector.ctor
  rw [bind_ok (newArr_ok h0 h)]
  have hfill := loopFrom_fill m.arrays.length (Elem.dflt : T) i.toNat
    { m with
      arrays := m.arrays ++ [some ((List.range i.toNat).map m.junk)]
      avail := m.avail - i.toNat
      news := m.news + 1 } [] ((List.range i.toNat).map m.junk) (by simp) (by simp)
  simp only [List.length_nil, Nat.cast_zero, List.nil_append] at hfill
  rw [forInt, bind_ok hfill]
  simp [newObj]

theorem copyLoop_ok (bs bd : Nat) (hne : bs ≠ bd) (src : List T) :
    ∀ (k : Nat) (m : Mem T) (i : Nat) (dpre drest : List T),
      m.arrays[bs]? = some (some src) →
      m.arrays[bd]? = some (some (dpre ++ drest)) →
      i + k ≤ src.length → k ≤ drest.length →
      copyLoop k ⟨bs, (i : Int)⟩ ⟨bd, (dpre.length : Int)⟩ m
        = .ok ⟨bd, ((dpre.length + k : Nat) : Int)⟩
            { m with
              arrays := (m.arrays.set bd (some (dpre ++ (src.drop i).take k ++ drest.drop k))) }
  | 0, m, i, dpre, drest, hs, hd, hi, hk => by
    simp only [copyLoop, pure_run, List.take_zero, List.append_nil, List.drop_zero, Nat.add_zero]
    rw [set_same hd]
  | k + 1, m, i, dpre, drest, hs, hd, hi, hk => by
    obtain ⟨y, drest1, rfl⟩ : ∃ y r, drest = y :: r := by
      cases drest with
      | nil => simp at hk
      | cons y r => exact ⟨y, r, rfl⟩
    have hilt : i < src.length := by omega
    have hld : load m ⟨bs, (i : Int)⟩ = some src[i] := by
      rw [load_ok hs, List.getElem?_eq_getElem hilt]
    have hst := store_ok hd (i := dpre.length) (by simp) src[i]
    have hbd := lt_of_get hd
    rw [copyLoop, bind_ok (rd_some hld), bind_ok hst]
    have := copyLoop_ok bs bd hne src k
      { m with arrays := m.arrays.set bd (some ((dpre ++ y :: drest1).set dpre.length src[i])) }
      (i + 1) (dpre ++ [src[i]]) drest1
      (by simp [List.getElem?_set_ne hne.symm, hs])
      (by simp [List.getElem?_set_self hbd])
      (by omega) (by simpa using hk)
    simp only [List.length_append, List.length_singleton, Nat.cast_add, Nat.cast_one] at this
    rw [ptr_add, ptr_add, this]
    have hdrop : List.drop i src = src[i] :: List.drop (i + 1) src := by
      rw [List.drop_eq_getElem_cons hilt]
    rw [hdrop, List.take_succ_cons]
    simp [List.set_set, Nat.add_assoc]
    omega

theorem copy_ok {b d : Nat} (hne : b ≠ d) {s t : List T} {m : Mem T} {i k : Nat}
    (hs : m.arrays[b]? = some (some s)) (hd : m.arrays[d]? = some (some t))
    (hi : i + k ≤ s.length) (hk : k ≤ t.length) :
    copy ⟨b, (i : Int)⟩ ⟨b, (i : Int) + (k : Int)⟩ ⟨d, 0⟩ m
      = .ok ⟨d, (k : Int)⟩
          { m with arrays := (m.arrays.set d (some ((s.drop i).take k ++ t.drop k))) } := by
  unfold copy
  have h := copyLoop_ok b d hne s k m i [] t hs (by simpa using hd) hi hk
  simp only [List.length_nil, Nat.cast_zero, List.nil_append, Nat.zero_add] at h
  simp [h]

theorem IsSeq.size_eq {m : Mem T} {a : Nat} {v : Vector} {buf : List T}
    (h : IsSeq m a v buf) : Vector.size m a = some v.n := by
  simp [Vector.size, h.1]

theorem IsSeq.begin_eq {m : Mem T} {a : Nat} {v : Vector} {buf : List T}
    (h : IsSeq m a v buf) : Vector.begin m a = some ⟨v.p.blk, 0⟩ := by
  obtain ⟨h1, h2, -, -⟩ := h
  cases v with
  | mk p n =>
    cases p with
    | mk blk off =>
      simp only at h2
      subst h2
      simp [Vector.begin, h1]

theorem IsSeq.n_nonneg {m : Mem T} {a : Nat} {v : Vector} {buf : List T}
    (h : IsSeq m a v buf) : 0 ≤ v.n := by
  rw [← h.2.2.2]
  exact Int.ofNat_nonneg _

theorem IsSeq.toNat_n {m : Mem T} {a : Nat} {v : Vector} {buf : List T}
    (h : IsSeq m a v buf) : v.n.toNat = buf.length := by
  rw [← h.2.2.2]
  simp

theorem IsSeq.read_eq {m : Mem T} {a : Nat} {v : Vector} {buf : List T}
    (h : IsSeq m a v buf) (i : Nat) : Vector.read m a (i : Int) = buf[i]? := by
  obtain ⟨h1, h2, h3, -⟩ := h
  cases v with
  | mk p n =>
    cases p with
    | mk blk off =>
      simp only at h2 h3
      subst h2
      simp [Vector.read, Vector.index, h1, ptr_add, load_ok (arr_iff.mp h3)]

theorem copy_ctor_ok {m : Mem T} {s : Nat} {v : Vector} {buf : List T}
    (hs : IsSeq m s v buf) (hav : buf.length ≤ m.avail) :
    Vector.copy_ctor s m = .ok m.objs.length
      { m with
        arrays := m.arrays ++ [some buf]
        objs := m.objs ++ [some ⟨⟨m.arrays.length, 0⟩, v.n⟩]
        avail := m.avail - buf.length
        news := m.news + 1 } := by
  have hn := hs.toNat_n
  have hblk := lt_of_get (arr_iff.mp hs.2.2.1)
  unfold Vector.copy_ctor
  rw [bind_ok (rd_some hs.size_eq), bind_ok (newArr_ok hs.n_nonneg (by omega))]
  have hsz : Vector.size (T := T) { m with
        arrays := m.arrays ++ [some ((List.range v.n.toNat).map m.junk)]
        avail := m.avail - v.n.toNat
        news := m.news + 1 } s = some v.n := by
    simpa [Vector.size, Mem.obj] using hs.size_eq
  have hbg : Vector.begin (T := T) { m with
        arrays := m.arrays ++ [some ((List.range v.n.toNat).map m.junk)]
        avail := m.avail - v.n.toNat
        news := m.news + 1 } s = some ⟨v.p.blk, 0⟩ := by
    simpa [Vector.begin, Mem.obj] using hs.begin_eq
  rw [bind_ok (rd_some hsz), bind_ok (rd_some hbg)]
  have hcp := copy_ok (T := T) (b := v.p.blk) (d := m.arrays.length) (by omega)
    (s := buf) (t := (List.range v.n.toNat).map m.junk)
    (m := { m with
        arrays := m.arrays ++ [some ((List.range v.n.toNat).map m.junk)]
        avail := m.avail - v.n.toNat
        news := m.news + 1 }) (i := 0) (k := buf.length)
    (by simpa [List.getElem?_append_left hblk] using arr_iff.mp hs.2.2.1)
    (by simp) (by simp) (by simp [hn])
  have hvn : v.n = (buf.length : Int) := hs.2.2.2.symm
  simp only [Nat.cast_zero] at hcp
  rw [hvn] at hcp
  rw [ptr_add, hvn, bind_ok hcp]
  simp [newObj]

theorem deleteArr_ok {m : Mem T} {b : Nat} {a : List T} (h : m.arrays[b]? = some (some a)) :
    deleteArr ⟨b, 0⟩ m = .ok ()
      { m with
        arrays := m.arrays.set b none
        avail := m.avail + a.length
        deletes := m.deletes + 1 } := by
  unfold deleteArr
  simp [arr_iff.mpr h]

theorem setObj_ok {m : Mem T} {a : Nat} {v : Vector} (h : m.objs[a]? = some (some v))
    (f : Vector → Vector) :
    setObj a f m = .ok () { m with objs := m.objs.set a (some (f v)) } := by
  unfold setObj
  simp [obj_iff.mpr h]

theorem assign_ok {m : Mem T} {this v : Nat} {vt vv : Vector} {bt bv : List T}
    (ht : IsSeq m this vt bt) (hv : IsSeq m v vv bv) (hne : v ≠ this)
    (hblk : vt.p.blk ≠ vv.p.blk) (hav : bv.length ≤ m.avail + bt.length) :
    Vector.assign this v m = .ok this
      { m with
        arrays := m.arrays.set vt.p.blk none ++ [some bv]
        objs := m.objs.set this (some ⟨⟨m.arrays.length, 0⟩, vv.n⟩)
        avail := m.avail + bt.length - bv.length
        news := m.news + 1
        deletes := m.deletes + 1 } := by
  have hto := obj_iff.mp ht.1
  have hvo := obj_iff.mp hv.1
  have hta := arr_iff.mp ht.2.2.1
  have hva := arr_iff.mp hv.2.2.1
  have htl := lt_of_get hto
  have hvl := lt_of_get hvo
  have htb := lt_of_get hta
  have hvb := lt_of_get hva
  have hvn : vv.n = (bv.length : Int) := hv.2.2.2.symm
  unfold Vector.assign
  rw [if_pos hne]
  dsimp only
  rw [bind_ok (rd_some ht.begin_eq), bind_ok (deleteArr_ok hta)]
  have hvn2 : (↑bv.length : Int).toNat = bv.length := by simp
  rw [hvn]
  rw [bind_ok (a := (bv.length : Int))
    (rd_some (by simpa [Vector.size, Mem.obj, hvn] using hv.size_eq))]
  rw [bind_ok (setObj_ok (by simpa using hto) _)]
  rw [bind_ok (a := (bv.length : Int))
    (rd_some (by simp [Vector.size, Mem.obj, htl]))]
  rw [bind_ok (newArr_ok (by simp) (by simpa using hav))]
  rw [bind_ok (setObj_ok (v := ⟨vt.p, (bv.length : Int)⟩) (by simp [htl]) _)]
  rw [bind_ok (a := (⟨vv.p.blk, 0⟩ : Ptr))
    (rd_some (by simpa [Vector.begin, Mem.obj, List.getElem?_set_ne hne.symm] using hv.begin_eq))]
  rw [bind_ok (a := (bv.length : Int))
    (rd_some (by simp [Vector.size, Mem.obj, htl]))]
  rw [bind_ok (a := (⟨m.arrays.length, 0⟩ : Ptr))
    (rd_some (by simp [Vector.begin, Mem.obj, htl]))]
  have hcp := copy_ok (T := T) (b := vv.p.blk) (d := m.arrays.length) (by omega)
    (s := bv) (t := (List.range bv.length).map m.junk)
    (m := { m with
        arrays := m.arrays.set vt.p.blk none ++ [some ((List.range bv.length).map m.junk)]
        objs := (m.objs.set this (some ⟨vt.p, (bv.length : Int)⟩)).set this
          (some ⟨⟨m.arrays.length, 0⟩, (bv.length : Int)⟩)
        avail := m.avail + bt.length - bv.length
        news := m.news + 1
        deletes := m.deletes + 1 }) (i := 0) (k := bv.length)
    (by
      have : vv.p.blk < (m.arrays.set vt.p.blk none).length := by simpa using hvb
      simp only [List.getElem?_append_left this]
      rw [List.getElem?_set_ne hblk, hva])
    (by
      have : (m.arrays.set vt.p.blk none).length = m.arrays.length := by simp
      rw [← this, List.getElem?_concat_length])
    (by simp) (by simp)
  simp only [Nat.cast_zero] at hcp
  simp only [hvn2, List.length_set, ptr_add]
  rw [bind_ok hcp]
  have hdrop : List.drop bv.length (List.map m.junk (List.range bv.length)) = [] :=
    List.drop_eq_nil_of_le (by simp)
  rw [bind_ok (pure_run _ _), pure_run]
  simp [List.set_set, hdrop]

theorem write_ok {m : Mem T} {a : Nat} {v : Vector} {buf : List T}
    (h : IsSeq m a v buf) {i : Nat} (hi : i < buf.length) (x : T) :
    Vector.write a (i : Int) x m
      = .ok () { m with arrays := m.arrays.set v.p.blk (some (buf.set i x)) } := by
  obtain ⟨h1, h2, h3, -⟩ := h
  cases v with
  | mk p n =>
    cases p with
    | mk blk off =>
      simp only at h2 h3
      subst h2
      unfold Vector.write
      rw [bind_ok (a := (⟨blk, (i : Int)⟩ : Ptr))
        (rd_some (by simp [Vector.index, h1, ptr_add]))]
      exact store_ok (arr_iff.mp h3) hi x

theorem dtor_ok {m : Mem T} {a : Nat} {v : Vector} {buf : List T} (h : IsSeq m a v buf) :
    Vector.dtor a m = .ok ()
      { m with
        arrays := m.arrays.set v.p.blk none
        objs := m.objs.set a none
        avail := m.avail + buf.length
        deletes := m.deletes + 1 } := by
  unfold Vector.dtor
  rw [bind_ok (rd_some h.begin_eq), bind_ok (deleteArr_ok (arr_iff.mp h.2.2.1))]

theorem IsSeq.read_int {m : Mem T} {a : Nat} {v : Vector} {buf : List T}
    (h : IsSeq m a v buf) (j : Int) :
    Vector.read m a j = if j < 0 then none else buf[j.toNat]? := by
  by_cases hj : j < 0
  · obtain ⟨h1, h2, -, -⟩ := h
    have hoff : (v.p + j).off < 0 := by
      show v.p.off + j < 0
      omega
    simp [Vector.read, Vector.index, h1, load, hoff, hj]
  · rw [if_neg hj]
    have : j = ((j.toNat : Nat) : Int) := by omega
    conv_lhs => rw [this]
    exact h.read_eq _

theorem findIdx_nul (s rest : List Char) (hs : ∀ c ∈ s, c ≠ Char.ofNat 0) :
    (s ++ Char.ofNat 0 :: rest).findIdx (fun c => c == Char.ofNat 0) = s.length := by
  induction s with
  | nil => simp [List.findIdx_cons]
  | cons c s ih =>
    have hc : c ≠ Char.ofNat 0 := hs c (by simp)
    have := ih (fun d hd => hs d (by simp [hd]))
    have hb : (c == Char.ofNat 0) = false := by simpa using hc
    simp [List.findIdx_cons, hb, this]

theorem strlen_ok {m : Mem Char} {b i : Nat} {a s r : List Char}
    (ha : m.arrays[b]? = some (some a)) (hd : a.drop i = s ++ Char.ofNat 0 :: r)
    (hs : ∀ c ∈ s, c ≠ Char.ofNat 0) :
    strlen m ⟨b, (i : Int)⟩ = some s.length := by
  unfold strlen
  simp [arr_iff.mpr ha, hd, findIdx_nul s r hs]

theorem toInt32_le (L : Nat) : (toInt32 L).toNat ≤ L := by
  unfold toInt32
  have := Nat.mod_le L (2 ^ 32)
  split <;> omega

theorem toInt32_small {L : Nat} (h : L < 2 ^ 31) : toInt32 L = (L : Int) := by
  unfold toInt32
  have : L % 2 ^ 32 = L := Nat.mod_eq_of_lt (by omega)
  rw [this, if_pos h]

theorem String_ctor_ok {m : Mem Char} {cb i : Nat} {a s rest : List Char}
    (ha : m.arrays[cb]? = some (some a)) (hd : a.drop i = s ++ Char.ofNat 0 :: rest)
    (hs : ∀ c ∈ s, c ≠ Char.ofNat 0)
    (h0 : 0 ≤ toInt32 s.length) (hav : (toInt32 s.length).toNat ≤ m.avail) :
    String_ctor ⟨cb, (i : Int)⟩ m = .ok m.objs.length
      { m with
        arrays := m.arrays ++ [some (s.take (toInt32 s.length).toNat)]
        objs := m.objs ++ [some ⟨⟨m.arrays.length, 0⟩, toInt32 s.length⟩]
        avail := m.avail - (toInt32 s.length).toNat
        news := m.news + 1 } := by
  have hk := toInt32_le s.length
  have hcb := lt_of_get ha
  have hlen : i + s.length < a.length := by
    have := congrArg List.length hd
    simp at this
    omega
  unfold String_ctor
  rw [bind_ok (rd_some (strlen_ok ha hd hs)), bind_ok (ctor_ok h0 hav)]
  rw [bind_ok (a := toInt32 s.length) (rd_some (by simp [Vector.size, Mem.obj]))]
  rw [bind_ok (a := (⟨m.arrays.length, 0⟩ : Ptr))
    (rd_some (by simp [Vector.begin, Mem.obj]))]
  have hcp := copy_ok (T := Char) (b := cb) (d := m.arrays.length) (by omega)
    (s := a) (t := List.replicate (toInt32 s.length).toNat (Elem.dflt : Char))
    (m := { m with
        arrays := m.arrays ++ [some (List.replicate (toInt32 s.length).toNat Elem.dflt)]
        objs := m.objs ++ [some ⟨⟨m.arrays.length, 0⟩, toInt32 s.length⟩]
        avail := m.avail - (toInt32 s.length).toNat
        news := m.news + 1 }) (i := i) (k := (toInt32 s.length).toNat)
    (by simpa [List.getElem?_append_left hcb] using ha)
    (by simp) (by omega) (by simp)
  have hcast : (((toInt32 s.length).toNat : Nat) : Int) = toInt32 s.length := by omega
  rw [hcast] at hcp
  rw [ptr_add, bind_ok hcp, pure_run]
  have htake : List.take (toInt32 s.length).toNat (s ++ Char.ofNat 0 :: rest)
      = List.take (toInt32 s.length).toNat s := by
    rw [List.take_append_of_le_length hk]
  simp [hd, htake]

theorem intercalate_cons (sep x : List Char) (l : List (List Char)) :
    List.intercalate sep (x :: l) = x ++ (l.map (fun y => sep ++ y)).flatten := by
  unfold List.intercalate
  induction l generalizing x with
  | nil => simp
  | cons y l ih =>
    rw [List.intersperse_cons₂, List.flatten_cons, List.flatten_cons, ih y]
    simp

theorem printLoop_tail [Elem T] {m : Mem T} {v : Nat} {vo : Vector} {buf : List T}
    (h : IsSeq m v vo buf) (sep : List Char) :
    ∀ (k i : Nat) (out : List Char), 1 ≤ i → i + k = buf.length →
      printLoop m v sep k (i : Int) out
        = some (out ++ ((buf.drop i).map (fun y => sep ++ Elem.shw y)).flatten)
  | 0, i, out, _, hik => by
    have : buf.drop i = [] := List.drop_eq_nil_of_le (by omega)
    simp [printLoop, this]
  | k + 1, i, out, hi, hik => by
    have hilt : i < buf.length := by omega
    have hrd : Vector.read m v (i : Int) = some buf[i] := by
      rw [h.read_eq, List.getElem?_eq_getElem hilt]
    have hpos : (i : Int) > 0 := by omega
    have ih := printLoop_tail h sep k (i + 1) (out ++ sep ++ Elem.shw buf[i]) (by omega) (by omega)
    rw [printLoop]
    simp only [hrd, hpos, if_true]
    have hdrop : buf.drop i = buf[i] :: buf.drop (i + 1) := List.drop_eq_getElem_cons hilt
    rw [show ((i : Int) + 1) = ((i + 1 : Nat) : Int) by simp, ih, hdrop]
    simp only [List.map_cons, List.flatten_cons, List.append_assoc]

theorem print_ok [Elem T] {m : Mem T} {v : Nat} {vo : Vector} {buf : List T}
    (h : IsSeq m v vo buf) (out sep : List Char) :
    print m out v sep = some (out ++ List.intercalate sep (buf.map Elem.shw)) := by
  unfold print
  rw [h.size_eq]
  simp only [h.toNat_n]
  cases buf with
  | nil => simp [printLoop, List.intercalate]
  | cons x xs =>
    have hrd : Vector.read m v (0 : Int) = some x := by
      have := h.read_eq 0
      simpa using this
    have ht := printLoop_tail h sep xs.length 1 (out ++ Elem.shw x) (by omega) (by simp; omega)
    rw [List.length_cons, printLoop]
    simp only [hrd, gt_iff_lt, lt_self_iff_false, if_false]
    rw [show ((0 : Int) + 1) = ((1 : Nat) : Int) by simp, ht, List.map_cons, intercalate_cons]
    simp [List.map_map, Function.comp_def]

theorem IsSeq.frame {m m' : Mem T} {a : Nat} {v : Vector} {buf : List T}
    (h : IsSeq m a v buf) (ho : m'.objs[a]? = m.objs[a]?)
    (ha : m'.arrays[v.p.blk]? = m.arrays[v.p.blk]?) : IsSeq m' a v buf := by
  obtain ⟨h1, h2, h3, h4⟩ := h
  refine ⟨?_, h2, ?_, h4⟩
  · rw [obj_iff] at *
    rw [ho, h1]
  · rw [arr_iff] at *
    rw [ha, h3]

theorem IsSeq.mk_new {m : Mem T} {a b : Nat} {n : Int} {buf : List T}
    (ho : m.objs[a]? = some (some ⟨⟨b, 0⟩, n⟩)) (ha : m.arrays[b]? = some (some buf))
    (hn : (buf.length : Int) = n) : IsSeq m a ⟨⟨b, 0⟩, n⟩ buf :=
  ⟨obj_iff.mpr ho, rfl, arr_iff.mpr ha, hn⟩

theorem IsSeq.read_get {m : Mem T} {a : Nat} {v : Vector} {buf : List T}
    (h : IsSeq m a v buf) {i : Int} (h0 : 0 ≤ i) (hi : i < buf.length) :
    ∃ x, buf[i.toNat]? = some x ∧ Vector.read m a i = some x := by
  have hlt : i.toNat < buf.length := by omega
  refine ⟨buf[i.toNat], List.getElem?_eq_getElem hlt, ?_⟩
  rw [h.read_int, if_neg (by omega), List.getElem?_eq_getElem hlt]

theorem IsSeq.size_len {m : Mem T} {a : Nat} {v : Vector} {buf : List T}
    (h : IsSeq m a v buf) : Vector.size m a = some (buf.length : Int) := by
  rw [h.size_eq, h.2.2.2]

/-- Two sequences with the same elements read the same at every index. -/
theorem IsSeq.read_congr {m m' : Mem T} {a a' : Nat} {v v' : Vector} {buf : List T}
    (h : IsSeq m a v buf) (h' : IsSeq m' a' v' buf) (j : Int) :
    Vector.read m' a' j = Vector.read m a j := by
  rw [h.read_int, h'.read_int]

/-- The memory after a successful copy construction from `s`. -/
theorem copy_ctor_seqs {m : Mem T} {s : Nat} {v : Vector} {buf : List T}
    (hs : IsSeq m s v buf) (hav : buf.length ≤ m.avail) :
    ∃ m', Vector.copy_ctor s m = .ok m.objs.length m' ∧
      IsSeq m' s v buf ∧ IsSeq m' m.objs.length ⟨⟨m.arrays.length, 0⟩, v.n⟩ buf := by
  have hso := lt_of_get (obj_iff.mp hs.1)
  have hsa := lt_of_get (arr_iff.mp hs.2.2.1)
  refine ⟨_, copy_ctor_ok hs hav, ?_, ?_⟩
  · exact hs.frame (by simp [List.getElem?_append_left hso])
      (by simp [List.getElem?_append_left hsa])
  · exact IsSeq.mk_new (by simp) (by simp) hs.2.2.2

/-- A write through `operator[]` at an index in range updates the buffer of its
sequence and leaves every sequence with another buffer as it was. -/
theorem write_seqs {m : Mem T} {a : Nat} {v : Vector} {buf : List T}
    (h : IsSeq m a v buf) {i : Int} (h0 : 0 ≤ i) (hi : i < buf.length) (x : T) :
    ∃ m', Vector.write a i x m = .ok () m' ∧ IsSeq m' a v (buf.set i.toNat x) ∧
      m'.objs = m.objs ∧ m'.avail = m.avail ∧ m'.news = m.news ∧ m'.deletes = m.deletes ∧
      ∀ b v' buf', IsSeq m b v' buf' → v'.p.blk ≠ v.p.blk → IsSeq m' b v' buf' := by
  have hlt : i.toNat < buf.length := by omega
  have hrun := write_ok h hlt x
  rw [show ((i.toNat : Nat) : Int) = i by omega] at hrun
  have hb := lt_of_get (arr_iff.mp h.2.2.1)
  refine ⟨_, hrun, ?_, rfl, rfl, rfl, rfl, ?_⟩
  · refine ⟨h.1, h.2.1, ?_, ?_⟩
    · rw [arr_iff]
      simp [List.getElem?_set_self hb]
    · simpa using h.2.2.2
  · intro b v' buf' hb' hne
    exact hb'.frame rfl (by simp [List.getElem?_set_ne hne.symm])

/-- The memory after a successful assignment between distinct sequences. -/
theorem assign_seqs {m : Mem T} {this v : Nat} {vt vv : Vector} {bt bv : List T}
    (ht : IsSeq m this vt bt) (hv : IsSeq m v vv bv) (hne : v ≠ this)
    (hblk : vt.p.blk ≠ vv.p.blk) (hav : bv.length ≤ m.avail + bt.length) :
    ∃ m', Vector.assign this v m = .ok this m' ∧
      IsSeq m' this ⟨⟨m.arrays.length, 0⟩, vv.n⟩ bv ∧ IsSeq m' v vv bv := by
  have hto := lt_of_get (obj_iff.mp ht.1)
  have hvo := lt_of_get (obj_iff.mp hv.1)
  have hva := lt_of_get (arr_iff.mp hv.2.2.1)
  refine ⟨_, assign_ok ht hv hne hblk hav, ?_, ?_⟩
  · refine IsSeq.mk_new (by simp [List.getElem?_set_self hto]) ?_ hv.2.2.2
    have : (m.arrays.set vt.p.blk none).length = m.arrays.length := by simp
    show (m.arrays.set vt.p.blk none ++ [some bv])[m.arrays.length]? = _
    rw [← this, List.getElem?_concat_length]
  · refine hv.frame (by simp [List.getElem?_set_ne hne.symm]) ?_
    have : vv.p.blk < (m.arrays.set vt.p.blk none).length := by simpa using hva
    show (m.arrays.set vt.p.blk none ++ [some bv])[vv.p.blk]? = _
    rw [List.getElem?_append_left this, List.getElem?_set_ne hblk]

/-- The memory after a successful sizing construction. -/
theorem ctor_seqs [Elem T] {m : Mem T} {i : Int} (h0 : 0 ≤ i) (h : i.toNat ≤ m.avail) :
    ∃ m', Vector.ctor i m = .ok m.objs.length m' ∧
      IsSeq m' m.objs.length ⟨⟨m.arrays.length, 0⟩, i⟩ (List.replicate i.toNat Elem.dflt) := by
  refine ⟨_, ctor_ok h0 h, IsSeq.mk_new (by simp) (by simp) ?_⟩
  simp
  omega

/-- The memory after a successful construction from a C string whose length
fits `int`. -/
theorem String_ctor_seqs {m : Mem Char} {cp : Ptr} {a s r : List Char}
    (hoff : 0 ≤ cp.off) (ha : m.arr cp.blk = some a)
    (hd : a.drop cp.off.toNat = s ++ Char.ofNat 0 :: r)
    (hs : ∀ c ∈ s, c ≠ Char.ofNat 0)
    (h0 : 0 ≤ toInt32 s.length) (hav : (toInt32 s.length).toNat ≤ m.avail) :
    strlen m cp = some s.length ∧
    ∃ m', String_ctor cp m = .ok m.objs.length m' ∧
      IsSeq m' m.objs.length ⟨⟨m.arrays.length, 0⟩, toInt32 s.length⟩
        (s.take (toInt32 s.length).toNat) ∧
      m'.arr cp.blk = some a := by
  cases cp with
  | mk cb off =>
    simp only at hoff ha hd
    have hcast : off = ((off.toNat : Nat) : Int) := by omega
    rw [hcast]
    have ha' := arr_iff.mp ha
    have hcb := lt_of_get ha'
    refine ⟨strlen_ok ha' hd hs, _, String_ctor_ok ha' hd hs h0 hav,
      IsSeq.mk_new (by simp) (by simp) ?_, ?_⟩
    · have := toInt32_le s.length
      simp only [List.length_take]
      omega
    · rw [arr_iff]
      simpa [List.getElem?_append_left hcb] using ha'

theorem flatten_singletons (s : List Char) :
    List.intercalate [] (s.map (fun c => [c])) = s := by
  cases s with
  | nil => rfl
  | cons x xs =>
    rw [List.map_cons, intercalate_cons]
    induction xs with
    | nil => rfl
    | cons y ys ih =>
      simp only [List.map_cons, List.flatten_cons, List.nil_append, List.singleton_append,
        List.cons.injEq, true_and] at ih ⊢
      exact ih

theorem writeFrom_seqs {a : Nat} {v : Vector} :
    ∀ (xs pre rest : List T) (m : Mem T), IsSeq m a v (pre ++ rest) →
      rest.length = xs.length →
      ∃ m', writeFrom a xs (pre.length : Int) m = .ok () m' ∧ IsSeq m' a v (pre ++ xs)
  | [], pre, rest, m, h, hl => by
    have : rest = [] := List.length_eq_zero.mp hl
    subst this
    exact ⟨m, rfl, h⟩
  | x :: xs, pre, rest, m, h, hl => by
    obtain ⟨y, rest1, rfl⟩ : ∃ y r, rest = y :: r := by
      cases rest with
      | nil => simp at hl
      | cons y r => exact ⟨y, r, rfl⟩
    obtain ⟨m1, hw, h1, -⟩ := write_seqs h (i := (pre.length : Int)) (by omega)
      (by simp) x
    have hset : (pre ++ y :: rest1).set (pre.length : Int).toNat x = (pre ++ [x]) ++ rest1 := by
      simp
    rw [hset] at h1
    obtain ⟨m2, hw2, h2⟩ := writeFrom_seqs xs (pre ++ [x]) rest1 m1 h1 (by simpa using hl)
    refine ⟨m2, ?_, by simpa using h2⟩
    rw [writeFrom, bind_ok hw]
    simpa using hw2

theorem bigSrc_length : bigSrc.length = 2 ^ 32 := List.length_replicate _ _

theorem bigSrc_no_nul : ∀ c ∈ bigSrc, c ≠ Char.ofNat 0 := by
  intro c hc
  rw [List.eq_of_mem_replicate hc]
  decide

theorem toInt32_bigSrc : toInt32 bigSrc.length = 0 := by
  rw [bigSrc_length]
  decide

/-- Constructing a `String` from the run of `2^32` letters gives the empty
sequence. -/
theorem String_ctor_big :
    ∃ m', String_ctor ⟨0, 0⟩ memBig = .ok 0 m' ∧ IsSeq m' 0 ⟨⟨1, 0⟩, 0⟩ ([] : List Char) := by
  obtain ⟨-, m', hrun, hseq, -⟩ := @String_ctor_seqs memBig ⟨0, 0⟩
    (bigSrc ++ [Char.ofNat 0]) bigSrc [] (le_refl _) rfl rfl
    bigSrc_no_nul (by rw [toInt32_bigSrc]) (by rw [toInt32_bigSrc]; exact Nat.zero_le _)
  rw [toInt32_bigSrc] at hseq
  exact ⟨m', hrun, hseq⟩

theorem bind_eq_ok {x : Prog T α} {f : α → Prog T β} {m m' : Mem T} {b : β}
    (h : (x >>= f) m = .ok b m') : ∃ a n, x m = .ok a n ∧ f a n = .ok b m' := by
  change Prog.bind x f m = _ at h
  unfold Prog.bind at h
  split at h
  · exact ⟨_, _, by assumption, h⟩
  · cases h
  · cases h

theorem rd_eq_ok {f : Mem T → Option α} {m m' : Mem T} {a : α} (h : rd f m = .ok a m') :
    f m = some a ∧ m' = m := by
  unfold rd at h
  split at h
  · injection h with h1 h2
    subst h1 h2
    exact ⟨by assumption, rfl⟩
  · cases h

theorem StoreOnly.refl (m : Mem T) : StoreOnly m m := ⟨rfl, fun _ => rfl⟩

theorem StoreOnly.trans {m n k : Mem T} (h1 : StoreOnly m n) (h2 : StoreOnly n k) :
    StoreOnly m k :=
  ⟨h2.1.trans h1.1, fun b => (h2.2 b).trans (h1.2 b)⟩

theorem store_storeOnly {r : Ptr} {x : T} {m m' : Mem T} {u : Unit}
    (h : store r x m = .ok u m') : StoreOnly m m' := by
  unfold store at h
  split at h
  · cases h
  · split at h
    · rename_i a ha
      split at h
      · injection h with _ h2
        subst h2
        refine ⟨rfl, fun b => ?_⟩
        have hlt := lt_of_get (arr_iff.mp ha)
        by_cases hb : b = r.blk
        · subst hb
          simp [Mem.arr, List.getElem?_set_self hlt, arr_iff.mp ha]
        · simp [Mem.arr, List.getElem?_set_ne (Ne.symm hb)]
      · cases h
    · cases h

theorem copyLoop_storeOnly :
    ∀ (k : Nat) (first dest r : Ptr) (m m' : Mem T),
      copyLoop k first dest m = .ok r m' → StoreOnly m m'
  | 0, _, _, _, m, m', h => by
    injection h with _ h2
    subst h2
    exact StoreOnly.refl m
  | k + 1, first, dest, r, m, m', h => by
    rw [copyLoop] at h
    obtain ⟨x, n1, h1, h3⟩ := bind_eq_ok h
    have hn1 := (rd_eq_ok h1).2
    subst hn1
    obtain ⟨u, n2, h2, h4⟩ := bind_eq_ok h3
    exact (store_storeOnly h2).trans (copyLoop_storeOnly k _ _ _ _ _ h4)

theorem copy_storeOnly {first last dest r : Ptr} {m m' : Mem T}
    (h : copy first last dest m = .ok r m') : StoreOnly m m' := by
  unfold copy at h
  split at h
  · exact copyLoop_storeOnly _ _ _ _ _ _ h
  · cases h

theorem Inv.storeOnly {m m' : Mem T} (hi : Inv m) (h : StoreOnly m m') : Inv m' := by
  obtain ⟨ho, ha⟩ := h
  have hobj : ∀ a, m'.obj a = m.obj a := fun a => by simp [Mem.obj, ho]
  constructor
  · intro a v hv
    rw [hobj] at hv
    obtain ⟨buf, h1, h2, h3, h4⟩ := hi.1 a v hv
    have := ha v.p.blk
    rw [h3] at this
    cases hb : m'.arr v.p.blk with
    | none => simp [hb] at this
    | some buf' =>
      rw [hb] at this
      simp only [Option.map_some', Option.some.injEq] at this
      exact ⟨buf', by rw [hobj]; exact h1, h2, hb, by rw [this]; exact h4⟩
  · intro a b va vb hva hvb
    rw [hobj] at hva hvb
    exact hi.2 a b va vb hva hvb

theorem newArr_throw {m : Mem T} {n : Int} (h : n < 0 ∨ m.avail < n.toNat) :
    newArr n m = .throw .bad_alloc m := by
  unfold newArr
  by_cases hn : n < 0
  · rw [if_pos hn]
  · rw [if_neg hn, if_pos (by omega)]

theorem ctor_throw [Elem T] {m : Mem T} {i : Int} (h : i < 0 ∨ m.avail < i.toNat) :
    Vector.ctor i m = .throw .bad_alloc m := by
  unfold Vector.ctor
  rw [bind_throw (newArr_throw h)]

theorem copy_ctor_throw {m : Mem T} {s : Nat} {v : Vector} {buf : List T}
    (hs : IsSeq m s v buf) (hav : m.avail < buf.length) :
    Vector.copy_ctor s m = .throw .bad_alloc m := by
  unfold Vector.copy_ctor
  rw [bind_ok (rd_some hs.size_eq), bind_throw (newArr_throw (Or.inr (by rw [hs.toNat_n]; exact hav)))]

theorem rd_none {f : Mem T → Option α} {m : Mem T} (h : f m = none) : rd f m = .ub := by
  simp [rd, h]

theorem bind_ub {x : Prog T α} {f : α → Prog T β} {m : Mem T} (h : x m = .ub) :
    (x >>= f) m = .ub := by
  show Prog.bind x f m = _
  simp [Prog.bind, h]

theorem copy_ctor_dead {m : Mem T} {v : Nat} (h : m.obj v = none) :
    Vector.copy_ctor v m = .ub := by
  unfold Vector.copy_ctor
  rw [bind_ub (rd_none (by simp [Vector.size, h]))]

theorem assign_dead_this {m : Mem T} {this v : Nat} (hne : v ≠ this) (h : m.obj this = none) :
    Vector.assign this v m = .ub := by
  unfold Vector.assign
  rw [if_pos hne]
  dsimp only
  rw [bind_ub (rd_none (by simp [Vector.begin, h]))]

theorem assign_dead_source {m : Mem T} {this v : Nat} {vt : Vector} {bt : List T}
    (ht : IsSeq m this vt bt) (hne : v ≠ this) (h : m.obj v = none) :
    Vector.assign this v m = .ub := by
  unfold Vector.assign
  rw [if_pos hne]
  dsimp only
  rw [bind_ok (rd_some ht.begin_eq), bind_ok (deleteArr_ok (arr_iff.mp ht.2.2.1))]
  rw [bind_ub (rd_none (by simpa [Vector.size, Mem.obj] using h))]

theorem assign_throw {m : Mem T} {this v : Nat} {vt vv : Vector} {bt bv : List T}
    (ht : IsSeq m this vt bt) (hv : IsSeq m v vv bv) (hne : v ≠ this)
    (hav : m.avail + bt.length < bv.length) :
    Vector.assign this v m = .throw .bad_alloc
      { m with
        arrays := m.arrays.set vt.p.blk none
        objs := m.objs.set this (some ⟨vt.p, vv.n⟩)
        avail := m.avail + bt.length
        deletes := m.deletes + 1 } := by
  have hto := obj_iff.mp ht.1
  have htl := lt_of_get hto
  have hvn : vv.n = (bv.length : Int) := hv.2.2.2.symm
  unfold Vector.assign
  rw [if_pos hne]
  dsimp only
  rw [bind_ok (rd_some ht.begin_eq), bind_ok (deleteArr_ok (arr_iff.mp ht.2.2.1))]
  rw [hvn]
  rw [bind_ok (a := (bv.length : Int))
    (rd_some (by simpa [Vector.size, Mem.obj, hvn] using hv.size_eq))]
  rw [bind_ok (setObj_ok (by simpa using hto) _)]
  rw [bind_ok (a := (bv.length : Int)) (rd_some (by simp [Vector.size, Mem.obj, htl]))]
  rw [bind_throw (newArr_throw (Or.inr (by simpa using hav)))]

theorem dtor_dead {m : Mem T} {a : Nat} (h : m.obj a = none) : Vector.dtor a m = .ub := by
  unfold Vector.dtor
  rw [bind_ub (rd_none (by simp [Vector.begin, h]))]

theorem obj_cases (m : Mem T) (a : Nat) : m.obj a = none ∨ ∃ v, m.obj a = some v := by
  cases h : m.obj a with
  | none => exact Or.inl rfl
  | some v => exact Or.inr ⟨v, rfl⟩

/-- The invariant after a new object took a fresh array of its recorded length. -/
theorem Inv.push {m m' : Mem T} (hi : Inv m) {buf : List T} {n : Int}
    (ha : m'.arrays = m.arrays ++ [some buf])
    (ho : m'.objs = m.objs ++ [some ⟨⟨m.arrays.length, 0⟩, n⟩])
    (hn : (buf.length : Int) = n) : Inv m' := by
  have hold : ∀ a v, a < m.objs.length → (m'.obj a = some v ↔ m.obj a = some v) := by
    intro a v hlt
    rw [obj_iff, obj_iff, ho, List.getElem?_append_left hlt]
  have hnew : m'.obj m.objs.length = some ⟨⟨m.arrays.length, 0⟩, n⟩ := by
    rw [obj_iff, ho, List.getElem?_concat_length]
  have hlive : ∀ a v, m'.obj a = some v →
      (a < m.objs.length ∧ m.obj a = some v) ∨
      (a = m.objs.length ∧ v = ⟨⟨m.arrays.length, 0⟩, n⟩) := by
    intro a v hv
    have hlt := lt_of_get (obj_iff.mp hv)
    rw [ho] at hlt
    simp only [List.length_append, List.length_singleton] at hlt
    by_cases hlt2 : a < m.objs.length
    · exact Or.inl ⟨hlt2, (hold a v hlt2).mp hv⟩
    · have hal : a = m.objs.length := by omega
      subst hal
      rw [hnew] at hv
      exact Or.inr ⟨rfl, (Option.some.inj hv).symm⟩
  have hseqnew : IsSeq m' m.objs.length ⟨⟨m.arrays.length, 0⟩, n⟩ buf :=
    IsSeq.mk_new (obj_iff.mp hnew) (by rw [ha, List.getElem?_concat_length]) hn
  have hseqold : ∀ a v buf', IsSeq m a v buf' → IsSeq m' a v buf' := by
    intro a v buf' hs
    have h1 := lt_of_get (obj_iff.mp hs.1)
    have h2 := lt_of_get (arr_iff.mp hs.2.2.1)
    exact hs.frame (by rw [ho, List.getElem?_append_left h1])
      (by rw [ha, List.getElem?_append_left h2])
  have hblk : ∀ a v, m.obj a = some v → v.p.blk < m.arrays.length := by
    intro a v hv
    obtain ⟨buf', hs⟩ := hi.1 a v hv
    exact lt_of_get (arr_iff.mp hs.2.2.1)
  constructor
  · intro a v hv
    rcases hlive a v hv with ⟨_, h⟩ | ⟨rfl, rfl⟩
    · obtain ⟨buf', hs⟩ := hi.1 a v h
      exact ⟨buf', hseqold a v buf' hs⟩
    · exact ⟨buf, hseqnew⟩
  · intro a b va vb hva hvb hab
    rcases hlive a va hva with ⟨_, h1⟩ | ⟨rfl, rfl⟩
    · rcases hlive b vb hvb with ⟨_, h2⟩ | ⟨rfl, rfl⟩
      · exact hi.2 a b va vb h1 h2 hab
      · have := hblk a va h1
        show va.p.blk ≠ m.arrays.length
        omega
    · rcases hlive b vb hvb with ⟨_, h2⟩ | ⟨rfl, rfl⟩
      · have := hblk b vb h2
        show m.arrays.length ≠ vb.p.blk
        omega
      · exact absurd rfl hab

theorem Inv.ctor [Elem T] {m m' : Mem T} (hi : Inv m) {i : Int} {a : Nat}
    (h : Vector.ctor i m = .ok a m') : Inv m' := by
  have hc : 0 ≤ i ∧ i.toNat ≤ m.avail := by
    by_contra hc
    rw [ctor_throw (by omega)] at h
    cases h
  rw [ctor_ok hc.1 hc.2] at h
  injection h with _ h2
  subst h2
  exact hi.push rfl rfl (by simp; omega)

theorem Inv.copy_ctor {m m' : Mem T} (hi : Inv m) {v a : Nat}
    (h : Vector.copy_ctor v m = .ok a m') : Inv m' := by
  rcases obj_cases m v with hd | ⟨vv, hv⟩
  · rw [copy_ctor_dead hd] at h
    cases h
  · obtain ⟨buf, hs⟩ := hi.1 v vv hv
    by_cases hav : buf.length ≤ m.avail
    · rw [copy_ctor_ok hs hav] at h
      injection h with _ h2
      subst h2
      exact hi.push rfl rfl hs.2.2.2
    · rw [copy_ctor_throw hs (by omega)] at h
      cases h

theorem Inv.reassign {m m' : Mem T} (hi : Inv m) {this : Nat} {vt : Vector}
    {bv : List T} {n : Int} (ht : m.obj this = some vt)
    (ha : m'.arrays = m.arrays.set vt.p.blk none ++ [some bv])
    (ho : m'.objs = m.objs.set this (some ⟨⟨m.arrays.length, 0⟩, n⟩))
    (hn : (bv.length : Int) = n) : Inv m' := by
  have htl := lt_of_get (obj_iff.mp ht)
  have hlen : (m.arrays.set vt.p.blk none).length = m.arrays.length := by simp
  have hnew : m'.obj this = some ⟨⟨m.arrays.length, 0⟩, n⟩ := by
    rw [obj_iff, ho, List.getElem?_set_self htl]
  have hold : ∀ a, a ≠ this → m'.obj a = m.obj a := by
    intro a hne
    simp [Mem.obj, ho, List.getElem?_set_ne (Ne.symm hne)]
  have hseqnew : IsSeq m' this ⟨⟨m.arrays.length, 0⟩, n⟩ bv :=
    IsSeq.mk_new (obj_iff.mp hnew) (by rw [ha, ← hlen, List.getElem?_concat_length]) hn
  have hblk : ∀ a v, m.obj a = some v → v.p.blk < m.arrays.length := by
    intro a v hv
    obtain ⟨buf', hs⟩ := hi.1 a v hv
    exact lt_of_get (arr_iff.mp hs.2.2.1)
  have hseqold : ∀ a v, a ≠ this → m.obj a = some v → ∃ buf', IsSeq m' a v buf' := by
    intro a v hne hv
    obtain ⟨buf', hs⟩ := hi.1 a v hv
    have hb := hi.2 a this v vt hv ht hne
    have hlt : v.p.blk < (m.arrays.set vt.p.blk none).length := by
      rw [hlen]
      exact hblk a v hv
    exact ⟨buf', hs.frame (by rw [ho, List.getElem?_set_ne (Ne.symm hne)])
      (by rw [ha, List.getElem?_append_left hlt, List.getElem?_set_ne (Ne.symm hb)])⟩
  constructor
  · intro a v hv
    by_cases hat : a = this
    · subst hat
      rw [hnew] at hv
      cases hv
      exact ⟨bv, hseqnew⟩
    · rw [hold a hat] at hv
      exact hseqold a v hat hv
  · intro a b va vb hva hvb hab
    by_cases hat : a = this
    · subst hat
      rw [hnew] at hva
      cases hva
      rw [hold b (Ne.symm hab)] at hvb
      have := hblk b vb hvb
      show m.arrays.length ≠ vb.p.blk
      omega
    · rw [hold a hat] at hva
      by_cases hbt : b = this
      · subst hbt
        rw [hnew] at hvb
        cases hvb
        have := hblk a va hva
        show va.p.blk ≠ m.arrays.length
        omega
      · rw [hold b hbt] at hvb
        exact hi.2 a b va vb hva hvb hab

theorem Inv.assign {m m' : Mem T} (hi : Inv m) {this v r : Nat}
    (h : Vector.assign this v m = .ok r m') : Inv m' := by
  by_cases hne : v = this
  · subst hne
    have : Vector.assign v v m = .ok v m := by
      simp [Vector.assign, bind, Prog.bind, pure]
    rw [this] at h
    injection h with _ h2
    subst h2
    exact hi
  · rcases obj_cases m this with hd | ⟨vt, ht⟩
    · rw [assign_dead_this hne hd] at h
      cases h
    · obtain ⟨bt, hst⟩ := hi.1 this vt ht
      rcases obj_cases m v with hd | ⟨vv, hv⟩
      · rw [assign_dead_source hst hne hd] at h
        cases h
      · obtain ⟨bv, hsv⟩ := hi.1 v vv hv
        have hblk := hi.2 this v vt vv ht hv (Ne.symm hne)
        by_cases hav : bv.length ≤ m.avail + bt.length
        · rw [assign_ok hst hsv hne hblk hav] at h
          injection h with _ h2
          subst h2
          exact hi.reassign ht rfl rfl hsv.2.2.2
        · rw [assign_throw hst hsv hne (by omega)] at h
          cases h

theorem Inv.dtor {m m' : Mem T} (hi : Inv m) {a : Nat} {u : Unit}
    (h : Vector.dtor a m = .ok u m') : Inv m' := by
  rcases obj_cases m a with hd | ⟨v, hv⟩
  · rw [dtor_dead hd] at h
    cases h
  · obtain ⟨buf, hs⟩ := hi.1 a v hv
    rw [dtor_ok hs] at h
    injection h with _ h2
    subst h2
    have hal := lt_of_get (obj_iff.mp hv)
    have hgone : ∀ w, (Mem.obj { m with
        arrays := m.arrays.set v.p.blk none
        objs := m.objs.set a none
        avail := m.avail + buf.length
        deletes := m.deletes + 1 } a = some w) → False := by
      intro w hw
      rw [obj_iff] at hw
      simp [List.getElem?_set_self hal] at hw
    have hold : ∀ b, b ≠ a → Mem.obj { m with
        arrays := m.arrays.set v.p.blk none
        objs := m.objs.set a none
        avail := m.avail + buf.length
        deletes := m.deletes + 1 } b = m.obj b := by
      intro b hne
      simp [Mem.obj, List.getElem?_set_ne (Ne.symm hne)]
    constructor
    · intro b w hw
      by_cases hba : b = a
      · subst hba
        exact absurd hw (fun h => hgone w h)
      · rw [hold b hba] at hw
        obtain ⟨buf', hs'⟩ := hi.1 b w hw
        have hb := hi.2 b a w v hw hv hba
        exact ⟨buf', hs'.frame (by simp [List.getElem?_set_ne (Ne.symm hba)])
          (by simp [List.getElem?_set_ne (Ne.symm hb)])⟩
    · intro b c vb vc hvb hvc hbc
      by_cases hba : b = a
      · subst hba
        exact absurd hvb (fun h => hgone vb h)
      · by_cases hca : c = a
        · subst hca
          exact absurd hvc (fun h => hgone vc h)
        · rw [hold b hba] at hvb
          rw [hold c hca] at hvc
          exact hi.2 b c vb vc hvb hvc hbc

theorem Inv.write {m m' : Mem T} (hi : Inv m) {a : Nat} {i : Int} {x : T} {u : Unit}
    (h : Vector.write a i x m = .ok u m') : Inv m' := by
  unfold Vector.write at h
  obtain ⟨r, n, h1, h2⟩ := bind_eq_ok h
  have hn := (rd_eq_ok h1).2
  subst hn
  exact hi.storeOnly (store_storeOnly h2)

theorem Inv.string_ctor {m m' : Mem Char} (hi : Inv m) {cp : Ptr} {a : Nat}
    (h : String_ctor cp m = .ok a m') : Inv m' := by
  unfold String_ctor at h
  obtain ⟨len, n1, h1, g1⟩ := bind_eq_ok h
  have hn1 := (rd_eq_ok h1).2
  subst hn1
  obtain ⟨this, n2, h2, g2⟩ := bind_eq_ok g1
  have hi2 := hi.ctor h2
  obtain ⟨k, n3, h3, g3⟩ := bind_eq_ok g2
  have hn3 := (rd_eq_ok h3).2
  subst hn3
  obtain ⟨q, n4, h4, g4⟩ := bind_eq_ok g3
  have hn4 := (rd_eq_ok h4).2
  subst hn4
  obtain ⟨e, n5, h5, g5⟩ := bind_eq_ok g4
  injection g5 with _ h6
  subst h6
  exact hi2.storeOnly (copy_storeOnly h5)

theorem Inv.init {m : Mem T} (h : m.objs = []) : Inv m := by
  have : ∀ a, m.obj a = none := fun a => by simp [Mem.obj, h]
  constructor
  · intro a v hv
    rw [this] at hv
    cases hv
  · intro a b va vb hva
    rw [this] at hva
    cases hva

/-- Every reachable memory satisfies the representation invariant. -/
theorem reachable_inv [Elem T] {m : Mem T} (h : Reachable m) : Inv m := by
  induction h with
  | init m h0 => exact Inv.init h0
  | create i a _ h ih => exact ih.ctor h
  | copy v a _ h ih => exact ih.copy_ctor h
  | from_bytes cp a _ h ih => exact ih.string_ctor h
  | assign this v r _ h ih => exact ih.assign h
  | write a i x _ h ih => exact ih.write h
  | iter_write it x _ h ih => exact ih.storeOnly (store_storeOnly h)
  | destroy a _ h ih => exact ih.dtor h

theorem inv_memB : Inv memB := by
  have hnone : ∀ a, memB.obj (a + 2) = none := fun a => rfl
  constructor
  · intro a v hv
    rcases a with _ | _ | a
    · cases hv
      exact ⟨[10, 20], rfl, rfl, rfl, rfl⟩
    · cases hv
      exact ⟨[7, 8, 9], rfl, rfl, rfl, rfl⟩
    · rw [hnone] at hv
      cases hv
  · intro a b va vb hva hvb hab
    rcases a with _ | _ | a
    · rcases b with _ | _ | b
      · exact absurd rfl hab
      · cases hva
        cases hvb
        decide
      · rw [hnone] at hvb
        cases hvb
    · rcases b with _ | _ | b
      · cases hva
        cases hvb
        decide
      · exact absurd rfl hab
      · rw [hnone] at hvb
        cases hvb
    · rw [hnone] at hva
      cases hva

theorem String_ctor_throw {m : Mem Char} {cp : Ptr} {a s r : List Char}
    (hoff : 0 ≤ cp.off) (ha : m.arr cp.blk = some a)
    (hd : a.drop cp.off.toNat = s ++ Char.ofNat 0 :: r)
    (hs : ∀ c ∈ s, c ≠ Char.ofNat 0)
    (h : toInt32 s.length < 0 ∨ m.avail < (toInt32 s.length).toNat) :
    String_ctor cp m = .throw .bad_alloc m := by
  cases cp with
  | mk cb off =>
    simp only at hoff ha hd
    have hcast : off = ((off.toNat : Nat) : Int) := by omega
    rw [hcast]
    unfold String_ctor
    rw [bind_ok (rd_some (strlen_ok (arr_iff.mp ha) hd hs)), bind_throw (ctor_throw h)]

/-- The memory after a successful assignment between distinct sequences: the
target and the source, what `new` has left, and every other sequence. -/
theorem assign_frame {m : Mem T} {this v : Nat} {vt vv : Vector} {bt bv : List T}
    (ht : IsSeq m this vt bt) (hv : IsSeq m v vv bv) (hne : v ≠ this)
    (hblk : vt.p.blk ≠ vv.p.blk) (hav : bv.length ≤ m.avail + bt.length) :
    ∃ m', Vector.assign this v m = .ok this m' ∧
      IsSeq m' this ⟨⟨m.arrays.length, 0⟩, vv.n⟩ bv ∧
      m'.avail = m.avail + bt.length - bv.length ∧
      m'.arrays.length = m.arrays.length + 1 ∧
      ∀ x vx bx, IsSeq m x vx bx → x ≠ this → vx.p.blk ≠ vt.p.blk → IsSeq m' x vx bx := by
  obtain ⟨m', hrun, hs', -⟩ := assign_seqs ht hv hne hblk hav
  have hrun2 := assign_ok ht hv hne hblk hav
  rw [hrun] at hrun2
  injection hrun2 with _ hm
  subst hm
  refine ⟨_, hrun, hs', rfl, by simp, ?_⟩
  intro x vx bx hx hxt hxb
  have hxa := lt_of_get (arr_iff.mp hx.2.2.1)
  have : vx.p.blk < (m.arrays.set vt.p.blk none).length := by simpa using hxa
  refine hx.frame (by simp [List.getElem?_set_ne (Ne.symm hxt)]) ?_
  show (m.arrays.set vt.p.blk none ++ [some bv])[vx.p.blk]? = _
  rw [List.getElem?_append_left this, List.getElem?_set_ne (Ne.symm hxb)]

theorem visitLoop_ok {m : Mem T} {b : Nat} {a : List T} (h : m.arrays[b]? = some (some a)) :
    ∀ (k i : Nat), i + k ≤ a.length →
      visitLoop k ⟨b, (i : Int)⟩ m = .ok ((a.drop i).take k) m
  | 0, i, _ => by simp [visitLoop, pure_run]
  | k + 1, i, hik => by
    have hilt : i < a.length := by omega
    have hld : load m ⟨b, (i : Int)⟩ = some a[i] := by
      rw [load_ok h, List.getElem?_eq_getElem hilt]
    have ih := visitLoop_ok h k (i + 1) (by omega)
    rw [visitLoop, bind_ok (rd_some hld), ptr_add]
    rw [show ((i : Int) + 1) = ((i + 1 : Nat) : Int) by simp, bind_ok ih, pure_run,
      List.drop_eq_getElem_cons hilt, List.take_succ_cons]

theorem IsSeq.end_eq {m : Mem T} {a : Nat} {v : Vector} {buf : List T}
    (h : IsSeq m a v buf) : Vector.end_ m a = some ⟨v.p.blk, (buf.length : Int)⟩ := by
  obtain ⟨h1, h2, -, h4⟩ := h
  cases v with
  | mk p n =>
    cases p with
    | mk blk off =>
      simp only at h2 h4
      subst h2
      subst h4
      simp [Vector.end_, h1, ptr_add]

theorem traverse_ok {m : Mem T} {a : Nat} {v : Vector} {buf : List T}
    (h : IsSeq m a v buf) : Vector.traverse a m = .ok buf m := by
  unfold Vector.traverse
  rw [bind_ok (rd_some h.begin_eq), bind_ok (rd_some h.end_eq)]
  unfold visit
  have hl := visitLoop_ok (arr_iff.mp h.2.2.1) buf.length 0 (by simp)
  simp only [Nat.cast_zero, List.drop_zero, List.take_length] at hl
  simp [hl]

/-- The run of `String(const char*)` on a source whose narrowed length `new`
can provide, with the memory it leaves. -/
theorem String_ctor_mem {m : Mem Char} {cp : Ptr} {a s r : List Char}
    (hoff : 0 ≤ cp.off) (ha : m.arr cp.blk = some a)
    (hd : a.drop cp.off.toNat = s ++ Char.ofNat 0 :: r)
    (hs : ∀ c ∈ s, c ≠ Char.ofNat 0)
    (h0 : 0 ≤ toInt32 s.length) (hav : (toInt32 s.length).toNat ≤ m.avail) :
    String_ctor cp m = .ok m.objs.length
      { m with
        arrays := m.arrays ++ [some (s.take (toInt32 s.length).toNat)]
        objs := m.objs ++ [some ⟨⟨m.arrays.length, 0⟩, toInt32 s.length⟩]
        avail := m.avail - (toInt32 s.length).toNat
        news := m.news + 1 } := by
  cases cp with
  | mk cb off =>
    simp only at hoff ha hd
    have hcast : off = ((off.toNat : Nat) : Int) := by omega
    rw [hcast]
    exact String_ctor_ok (arr_iff.mp ha) hd hs h0 hav

/-- The memory after the destructor ran on a sequence. -/
theorem dtor_mem {m : Mem T} {a : Nat} {v : Vector} {buf : List T} (h : IsSeq m a v buf) :
    ∃ m', Vector.dtor a m = .ok () m' ∧ m'.obj a = none ∧
      m'.arrays = m.arrays.set v.p.blk none ∧ m'.avail = m.avail + buf.length ∧
      m'.news = m.news ∧ m'.deletes = m.deletes + 1 := by
  have hal := lt_of_get (obj_iff.mp h.1)
  refine ⟨_, dtor_ok h, ?_, rfl, rfl, rfl, rfl⟩
  simp [Mem.obj, List.getElem?_set_self hal]

theorem inv_memD : Inv memD :=
  inv_memB.ctor (show Vector.ctor 1 memB = .ok 2 memD from rfl)

theorem inv_memC : Inv memC :=
  inv_memB.storeOnly ⟨rfl, fun _ => rfl⟩

/-- The run of `String(const char*)` on a NUL-terminated source: success with
the narrowed length when `new` can provide it, `bad_alloc` otherwise. -/
theorem String_ctor_size {m m' : Mem Char} {cp : Ptr} {a s r : List Char} {str : Nat}
    (hoff : 0 ≤ cp.off) (ha : m.arr cp.blk = some a)
    (hd : a.drop cp.off.toNat = s ++ Char.ofNat 0 :: r)
    (hs : ∀ c ∈ s, c ≠ Char.ofNat 0) (h : String_ctor cp m = .ok str m') :
    Vector.size m' str = some (toInt32 s.length) := by
  by_cases hok : 0 ≤ toInt32 s.length ∧ (toInt32 s.length).toNat ≤ m.avail
  · obtain ⟨-, m1, hrun, hseq, -⟩ := String_ctor_seqs hoff ha hd hs hok.1 hok.2
    rw [hrun] at h
    injection h with h1 h2
    subst h1 h2
    exact hseq.size_eq
  · rw [String_ctor_throw hoff ha hd hs (by omega)] at h
    cases h

theorem toInt32_eq_iff (L : Nat) : toInt32 L = (L : Int) ↔ L ≤ 2 ^ 31 - 1 := by
  unfold toInt32
  have := Nat.mod_lt L (show 0 < 2 ^ 32 by decide)
  have := Nat.mod_le L (2 ^ 32)
  have := Nat.div_add_mod L (2 ^ 32)
  split <;> omega

theorem toInt32_range (L : Nat) :
    -(2 ^ 31) ≤ toInt32 L ∧ toInt32 L < 2 ^ 31 ∧ ((L : Int) - toInt32 L) % 2 ^ 32 = 0 := by
  unfold toInt32
  have := Nat.mod_lt L (show 0 < 2 ^ 32 by decide)
  have := Nat.div_add_mod L (2 ^ 32)
  split <;> omega

theorem main_with_ok {construct : Prog Char Nat} {m m1 m2 : Mem Char} {g : Nat}
    {out o : List Char} (hc : construct m = .ok g m1) (hp : operator_shl m1 out g = some o)
    (hd : Vector.dtor g m1 = .ok () m2) :
    main_with construct out m = (o ++ [Char.ofNat 10], .ok 0 m2) := by
  unfold main_with main_try
  simp only [hc, hp, hd]

theorem main_with_bad_alloc {construct : Prog Char Nat} {m m1 : Mem Char} (out : List Char)
    (hc : construct m = .throw .bad_alloc m1) :
    main_with construct out m
      = (out ++ "Out of memory".toList ++ [Char.ofNat 10], .ok 0 m1) := by
  unfold main_with main_try
  simp only [hc]

theorem main_with_other {construct : Prog Char Nat} {m m1 : Mem Char} {e : Exn}
    (out : List Char) (hc : construct m = .throw e m1) (he : e ≠ .bad_alloc) :
    main_with construct out m
      = (out ++ "Unknown exception".toList ++ [Char.ofNat 10], .throw e m1) := by
  cases e with
  | bad_alloc => exact absurd rfl he
  | unknown =>
    unfold main_with main_try
    simp only [hc]

/-- Writing a `String` with `operator<<` appends its characters. -/
theorem shl_seq {m : Mem Char} {g : Nat} {v : Vector} {s : List Char}
    (h : IsSeq m g v s) (out : List Char) : operator_shl m out g = some (out ++ s) := by
  have := print_ok h out []
  rw [show (Elem.shw : Char → List Char) = fun c => [c] from rfl, flatten_singletons] at this
  exact this

end Lemmas

/-! ## The specification, claim by claim -/

/-- C1: for every sequence `s` (of any length), the copy constructor yields a
sequence of the same length whose element at every index equals the element of
`s` there at the moment of the copy. -/
theorem copy_ctor_equal_length_and_elements {T : Type} (m : Mem T) (s : Nat) (v : Vector)
    (buf : List T) (hs : IsSeq m s v buf) (hav : buf.length ≤ m.avail) :
    ∃ c m', Vector.copy_ctor s m = .ok c m' ∧
      Vector.size m s = some (buf.length : Int) ∧
      Vector.size m' c = Vector.size m s ∧
      ∀ i : Int, 0 ≤ i → i < buf.length →
        (Vector.read m s i).isSome ∧ Vector.read m' c i = Vector.read m s i := by
  obtain ⟨m', hrun, _, hc⟩ := copy_ctor_seqs hs hav
  refine ⟨_, m', hrun, hs.size_len, ?_, ?_⟩
  · rw [hc.size_len, hs.size_len]
  · intro i h0 hi
    obtain ⟨x, _, hx⟩ := hs.read_get h0 hi
    exact ⟨by simp [hx], hs.read_congr hc i⟩

theorem copy_ctor_equal_length_and_elements_witness :
    IsSeq memA 0 ⟨⟨0, 0⟩, 2⟩ [10, 20] ∧ [10, 20].length ≤ memA.avail ∧
    ∃ c m', Vector.copy_ctor 0 memA = .ok c m' ∧
      Vector.size memA 0 = some (([10, 20] : List Int).length : Int) ∧
      Vector.size m' c = Vector.size memA 0 ∧
      ∀ i : Int, 0 ≤ i → i < ([10, 20] : List Int).length →
        (Vector.read memA 0 i).isSome ∧ Vector.read m' c i = Vector.read memA 0 i :=
  ⟨⟨rfl, rfl, rfl, rfl⟩, by decide,
    copy_ctor_equal_length_and_elements memA 0 ⟨⟨0, 0⟩, 2⟩ [10, 20] ⟨rfl, rfl, rfl, rfl⟩
      (by decide)⟩

/-- C2: independence of a copy. After `c = copy(s)`, the two sequences have
different buffers; a write at any index in range of `c` through `operator[]`
succeeds, is seen in `c`, and leaves the length and every element of `s` as they
were; and a write at any index in range of `s` does the same for `c`. -/
theorem copy_ctor_independent {T : Type} (m : Mem T) (s : Nat) (v : Vector)
    (buf : List T) (hs : IsSeq m s v buf) (hav : buf.length ≤ m.avail) :
    ∃ c m', Vector.copy_ctor s m = .ok c m' ∧ c ≠ s ∧
      Vector.begin m' c ≠ Vector.begin m' s ∧
      ∀ (i : Int) (x : T), 0 ≤ i → i < buf.length →
        (∃ m2, Vector.write c i x m' = .ok () m2 ∧ Vector.read m2 c i = some x ∧
          Vector.size m2 s = Vector.size m' s ∧
          ∀ j : Int, Vector.read m2 s j = Vector.read m' s j) ∧
        (∃ m2, Vector.write s i x m' = .ok () m2 ∧ Vector.read m2 s i = some x ∧
          Vector.size m2 c = Vector.size m' c ∧
          ∀ j : Int, Vector.read m2 c j = Vector.read m' c j) := by
  obtain ⟨m', hrun, hs', hc⟩ := copy_ctor_seqs hs hav
  have hso := lt_of_get (obj_iff.mp hs.1)
  have hsa := lt_of_get (arr_iff.mp hs.2.2.1)
  have hblk : v.p.blk ≠ m.arrays.length := by omega
  refine ⟨_, m', hrun, by omega, ?_, ?_⟩
  · rw [hc.begin_eq, hs'.begin_eq]
    intro h
    injection h with h
    injection h with h
    exact hblk h.symm
  · intro i x h0 hi
    have hlt : i.toNat < buf.length := by omega
    constructor
    · obtain ⟨m2, hw, hc2, _, _, _, _, hfr⟩ := write_seqs hc h0 hi x
      have hs2 := hfr s v buf hs' hblk
      refine ⟨m2, hw, ?_, ?_, fun j => hs'.read_congr hs2 j⟩
      · rw [hc2.read_int, if_neg (by omega)]
        simp [hlt]
      · rw [hs2.size_len, hs'.size_len]
    · obtain ⟨m2, hw, hs2, _, _, _, _, hfr⟩ := write_seqs hs' h0 hi x
      have hc2 := hfr _ _ buf hc (Ne.symm hblk)
      refine ⟨m2, hw, ?_, ?_, fun j => hc.read_congr hc2 j⟩
      · rw [hs2.read_int, if_neg (by omega)]
        simp [hlt]
      · rw [hc2.size_len, hc.size_len]

theorem copy_ctor_independent_witness :
    IsSeq memA 0 ⟨⟨0, 0⟩, 2⟩ [10, 20] ∧ [10, 20].length ≤ memA.avail ∧
    ∃ c m', Vector.copy_ctor 0 memA = .ok c m' ∧ c ≠ 0 ∧
      Vector.begin m' c ≠ Vector.begin m' 0 ∧
      ∀ (i : Int) (x : Int), 0 ≤ i → i < ([10, 20] : List Int).length →
        (∃ m2, Vector.write c i x m' = .ok () m2 ∧ Vector.read m2 c i = some x ∧
          Vector.size m2 0 = Vector.size m' 0 ∧
          ∀ j : Int, Vector.read m2 0 j = Vector.read m' 0 j) ∧
        (∃ m2, Vector.write 0 i x m' = .ok () m2 ∧ Vector.read m2 0 i = some x ∧
          Vector.size m2 c = Vector.size m' c ∧
          ∀ j : Int, Vector.read m2 c j = Vector.read m' c j) :=
  ⟨⟨rfl, rfl, rfl, rfl⟩, by decide,
    copy_ctor_independent memA 0 ⟨⟨0, 0⟩, 2⟩ [10, 20] ⟨rfl, rfl, rfl, rfl⟩ (by decide)⟩

/-- C3: assignment between distinct sequences. In a memory that satisfies the
representation invariant (as every reachable memory does), for distinct live
objects `self` and `other`, whatever the length and contents of `self` were,
`self = other` succeeds when `new` can meet the request, returns `self`, and
leaves `self` with the length of `other` and, at every index, the element of
`other`; `other` keeps its length and elements. -/
theorem assign_distinct {T : Type} (m : Mem T) (self other : Nat) (vs vo : Vector)
    (hi : Inv m) (hs : m.obj self = some vs) (ho : m.obj other = some vo)
    (hne : other ≠ self) (hav : vo.n.toNat ≤ m.avail + vs.n.toNat) :
    ∃ m', Vector.assign self other m = .ok self m' ∧
      Vector.size m other = some vo.n ∧
      Vector.size m' self = Vector.size m other ∧
      (∀ i : Int, 0 ≤ i → i < vo.n →
        (Vector.read m other i).isSome ∧ Vector.read m' self i = Vector.read m other i) ∧
      Vector.size m' other = Vector.size m other ∧
      ∀ j : Int, Vector.read m' other j = Vector.read m other j := by
  obtain ⟨bs, hss⟩ := hi.1 self vs hs
  obtain ⟨bo, hso⟩ := hi.1 other vo ho
  have hblk := hi.2 self other vs vo hs ho (Ne.symm hne)
  obtain ⟨m', hrun, hs', ho'⟩ := assign_seqs hss hso hne hblk
    (by rw [← hss.toNat_n, ← hso.toNat_n]; exact hav)
  refine ⟨m', hrun, hso.size_eq, ?_, ?_, ?_, fun j => hso.read_congr ho' j⟩
  · rw [hs'.size_len, hso.size_len]
  · intro i h0 hlt
    obtain ⟨x, _, hx⟩ := hso.read_get h0 (by rw [hso.2.2.2]; exact hlt)
    exact ⟨by simp [hx], hso.read_congr hs' i⟩
  · rw [ho'.size_len, hso.size_len]

theorem assign_distinct_witness :
    Inv memB ∧ memB.obj 0 = some ⟨⟨0, 0⟩, 2⟩ ∧ memB.obj 1 = some ⟨⟨1, 0⟩, 3⟩ ∧
    ∃ m', Vector.assign 0 1 memB = .ok 0 m' ∧
      Vector.size memB 1 = some 3 ∧
      Vector.size m' 0 = Vector.size memB 1 ∧
      (∀ i : Int, 0 ≤ i → i < 3 →
        (Vector.read memB 1 i).isSome ∧ Vector.read m' 0 i = Vector.read memB 1 i) ∧
      Vector.size m' 1 = Vector.size memB 1 ∧
      ∀ j : Int, Vector.read m' 1 j = Vector.read memB 1 j :=
  ⟨inv_memB, rfl, rfl,
    assign_distinct memB 0 1 ⟨⟨0, 0⟩, 2⟩ ⟨⟨1, 0⟩, 3⟩ inv_memB rfl rfl (by decide) (by decide)⟩

/-- C4: self-assignment is a no-op. `s = s` returns `s` and leaves the memory as
it was: same length, same element at every index, no `delete[]`, no `new`, the
same arrays. -/
theorem assign_self_noop {T : Type} (m : Mem T) (s : Nat) :
    ∃ m', Vector.assign s s m = .ok s m' ∧
      Vector.size m' s = Vector.size m s ∧
      (∀ i : Int, Vector.read m' s i = Vector.read m s i) ∧
      m'.deletes = m.deletes ∧ m'.news = m.news ∧ m'.arrays = m.arrays ∧
      m'.objs = m.objs ∧ m'.avail = m.avail :=
  ⟨m, by simp [Vector.assign, bind, Prog.bind, pure], rfl, fun _ => rfl, rfl, rfl, rfl, rfl, rfl⟩

/-- C5: for every size `N ≥ 0` that `new` can meet, the sizing constructor
yields a sequence of length `N` whose element at every index is `T()`; and
`int()` is `0`, `char()` is the NUL character. -/
theorem ctor_length_and_default {T : Type} [Elem T] (m : Mem T) (N : Int) (h0 : 0 ≤ N)
    (hav : N.toNat ≤ m.avail) :
    (∃ a m', Vector.ctor N m = .ok a m' ∧ Vector.size m' a = some N ∧
      ∀ i : Int, 0 ≤ i → i < N → Vector.read m' a i = some (Elem.dflt : T)) ∧
    (Elem.dflt : Int) = 0 ∧ (Elem.dflt : Char) = Char.ofNat 0 := by
  obtain ⟨m', hrun, hseq⟩ := ctor_seqs (T := T) h0 hav
  refine ⟨⟨_, m', hrun, hseq.size_eq, ?_⟩, rfl, rfl⟩
  intro i hi0 hiN
  rw [hseq.read_int, if_neg (by omega), List.getElem?_replicate, if_pos (by omega)]

theorem ctor_length_and_default_witness :
    (0 : Int) ≤ 3 ∧ (3 : Int).toNat ≤ memE.avail ∧
    ((∃ a m', Vector.ctor 3 memE = .ok a m' ∧ Vector.size m' a = some 3 ∧
      ∀ i : Int, 0 ≤ i → i < 3 → Vector.read m' a i = some (Elem.dflt : Int)) ∧
    (Elem.dflt : Int) = 0 ∧ (Elem.dflt : Char) = Char.ofNat 0) :=
  ⟨by decide, by decide, ctor_length_and_default memE 3 (by decide) (by decide)⟩

/-- C6, as stated, fails: for the NUL-terminated source of `L = 2^32` letters
(which `new` could provide) the constructed `String` has length `0`, not `L`. -/
theorem String_ctor_length_counterexample :
    memBig.arr 0 = some (bigSrc ++ [Char.ofNat 0]) ∧
    (∀ c ∈ bigSrc, c ≠ Char.ofNat 0) ∧
    bigSrc.length = 2 ^ 32 ∧ bigSrc.length ≤ memBig.avail ∧
    strlen memBig ⟨0, 0⟩ = some (2 ^ 32) ∧
    ∃ m', String_ctor ⟨0, 0⟩ memBig = .ok 0 m' ∧ Vector.size m' 0 = some 0 ∧
      Vector.size m' 0 ≠ some ((bigSrc.length : Nat) : Int) := by
  obtain ⟨m', hrun, hseq⟩ := String_ctor_big
  have hlen : strlen memBig ⟨0, 0⟩ = some bigSrc.length :=
    strlen_ok (m := memBig) (b := 0) (i := 0) (a := bigSrc ++ [Char.ofNat 0]) (s := bigSrc)
      (r := []) rfl rfl bigSrc_no_nul
  refine ⟨rfl, bigSrc_no_nul, bigSrc_length, ?_, ?_, m', hrun, hseq.size_eq, ?_⟩
  · rw [bigSrc_length]
    decide
  · rw [← bigSrc_length]
    exact hlen
  · rw [hseq.size_eq, bigSrc_length]
    decide

/-- C6 (amended): for every NUL-terminated source with `L ≤ 2^31 - 1` chars
before its first NUL, when `new` can provide `L` elements, `String(const char*)`
yields a sequence of length `L` whose element at every index `i < L` is source
char `i`; its buffer is exactly these `L` chars, so the terminator is neither
stored nor counted. -/
theorem String_ctor_length_and_elements (m : Mem Char) (cp : Ptr) (a s rest : List Char)
    (hoff : 0 ≤ cp.off) (ha : m.arr cp.blk = some a)
    (hd : a.drop cp.off.toNat = s ++ Char.ofNat 0 :: rest)
    (hs : ∀ c ∈ s, c ≠ Char.ofNat 0) (hL : s.length < 2 ^ 31) (hav : s.length ≤ m.avail) :
    strlen m cp = some s.length ∧
    ∃ str m', String_ctor cp m = .ok str m' ∧
      Vector.size m' str = some (s.length : Int) ∧
      (∀ i : Int, 0 ≤ i → i < s.length →
        (load m (cp + i)).isSome ∧ Vector.read m' str i = load m (cp + i)) ∧
      (∃ v, IsSeq m' str v s) ∧
      ∀ i : Int, Vector.read m' str i ≠ some (Char.ofNat 0) := by
  have hk := toInt32_small hL
  obtain ⟨hlen, m', hrun, hseq, -⟩ := String_ctor_seqs hoff ha hd hs
    (by rw [hk]; exact Int.ofNat_nonneg _) (by rw [hk]; simpa using hav)
  rw [hk, Int.toNat_ofNat, List.take_length] at hseq
  refine ⟨hlen, _, m', hrun, hseq.size_eq, ?_, ⟨_, hseq⟩, ?_⟩
  · intro i h0 hi
    have hlt : i.toNat < s.length := by omega
    have hld : load m (cp + i) = some s[i.toNat] := by
      have hget : a[cp.off.toNat + i.toNat]? = some s[i.toNat] := by
        rw [← List.getElem?_drop, hd, List.getElem?_append_left hlt,
          List.getElem?_eq_getElem hlt]
      have hoff2 : ¬ (cp + i).off < 0 := by
        show ¬ cp.off + i < 0
        omega
      have hnat : (cp + i).off.toNat = cp.off.toNat + i.toNat := by
        show (cp.off + i).toNat = _
        omega
      have hblk : (cp + i).blk = cp.blk := rfl
      unfold load
      rw [if_neg hoff2, hblk, ha]
      simp only [hnat, hget]
    rw [hld, hseq.read_int, if_neg (by omega), List.getElem?_eq_getElem hlt]
    simp
  · intro i hcon
    rw [hseq.read_int] at hcon
    split at hcon
    · simp at hcon
    · exact hs _ (List.getElem?_mem hcon) rfl

theorem String_ctor_length_and_elements_witness :
    memHello.arr 0 = some ("Hello world".toList ++ [Char.ofNat 0]) ∧
    "Hello world".toList.length < 2 ^ 31 ∧
    (strlen memHello ⟨0, 0⟩ = some "Hello world".toList.length ∧
    ∃ str m', String_ctor ⟨0, 0⟩ memHello = .ok str m' ∧
      Vector.size m' str = some ("Hello world".toList.length : Int) ∧
      (∀ i : Int, 0 ≤ i → i < "Hello world".toList.length →
        (load memHello ((⟨0, 0⟩ : Ptr) + i)).isSome ∧
        Vector.read m' str i = load memHello ((⟨0, 0⟩ : Ptr) + i)) ∧
      (∃ v, IsSeq m' str v "Hello world".toList) ∧
      ∀ i : Int, Vector.read m' str i ≠ some (Char.ofNat 0)) :=
  ⟨rfl, by decide,
    String_ctor_length_and_elements memHello ⟨0, 0⟩
      ("Hello world".toList ++ [Char.ofNat 0]) "Hello world".toList [] (by decide) rfl rfl
      (by decide) (by decide) (by decide)⟩

/-- C7: `print` on an empty sequence writes nothing; on a sequence of `N ≥ 1`
elements it writes the renderings of the elements in storage order joined by
`sep`: the first rendering, then `sep` and the rendering for each of the other
`N - 1` elements, nothing before the first and nothing after the last. -/
theorem print_joined {T : Type} [Elem T] (m : Mem T) (s : Nat) (v : Vector) (buf : List T)
    (out sep : List Char) (hs : IsSeq m s v buf) :
    print m out s sep = some (out ++ List.intercalate sep (buf.map Elem.shw)) ∧
    (buf = [] → print m out s sep = some out) ∧
    (∀ x xs, buf = x :: xs →
      print m out s sep
        = some (out ++ Elem.shw x ++ (xs.map (fun y => sep ++ Elem.shw y)).flatten)) := by
  have h := print_ok hs out sep
  refine ⟨h, ?_, ?_⟩
  · intro hb
    subst hb
    simpa [List.intercalate] using h
  · intro x xs hb
    subst hb
    rw [h, List.map_cons, intercalate_cons, List.map_map]
    simp [Function.comp_def]

theorem print_joined_witness :
    IsSeq memB 1 ⟨⟨1, 0⟩, 3⟩ [7, 8, 9] ∧
    (print memB [] 1 ", ".toList
        = some ([] ++ List.intercalate ", ".toList (([7, 8, 9] : List Int).map Elem.shw)) ∧
    (([7, 8, 9] : List Int) = [] → print memB [] 1 ", ".toList = some []) ∧
    (∀ x xs, ([7, 8, 9] : List Int) = x :: xs →
      print memB [] 1 ", ".toList
        = some ([] ++ Elem.shw x ++ (xs.map (fun y => ", ".toList ++ Elem.shw y)).flatten))) :=
  ⟨⟨rfl, rfl, rfl, rfl⟩,
    print_joined memB 1 ⟨⟨1, 0⟩, 3⟩ [7, 8, 9] [] ", ".toList ⟨rfl, rfl, rfl, rfl⟩⟩

/-- C8, as stated, fails: the string of `2^32` letters holds no NUL, yet the
`String` built from it is written by `operator<<` as nothing at all. -/
theorem round_trip_fails_beyond_int :
    memBig.arr 0 = some (bigSrc ++ [Char.ofNat 0]) ∧
    (∀ c ∈ bigSrc, c ≠ Char.ofNat 0) ∧ bigSrc ≠ [] ∧ bigSrc.length ≤ memBig.avail ∧
    ∃ str m', String_ctor ⟨0, 0⟩ memBig = .ok str m' ∧ operator_shl m' [] str = some [] := by
  obtain ⟨m', hrun, hseq⟩ := String_ctor_big
  refine ⟨rfl, bigSrc_no_nul, ?_, ?_, 0, m', hrun, ?_⟩
  · intro h
    have := bigSrc_length
    rw [h] at this
    exact absurd this (by decide)
  · rw [bigSrc_length]
    decide
  · have := print_ok hseq [] []
    simpa [operator_shl, List.intercalate] using this

/-- C8 (amended): round trip. For every string `s` without NUL and of at most
`2^31 - 1` chars, when `new` can provide `|s|` elements, constructing a `String`
from `s` and writing it with `operator<<` appends exactly `s` to the stream. -/
theorem String_round_trip (m : Mem Char) (cp : Ptr) (a s rest out : List Char)
    (hoff : 0 ≤ cp.off) (ha : m.arr cp.blk = some a)
    (hd : a.drop cp.off.toNat = s ++ Char.ofNat 0 :: rest)
    (hs : ∀ c ∈ s, c ≠ Char.ofNat 0) (hL : s.length < 2 ^ 31) (hav : s.length ≤ m.avail) :
    ∃ str m', String_ctor cp m = .ok str m' ∧ operator_shl m' out str = some (out ++ s) := by
  have hk := toInt32_small hL
  obtain ⟨-, m', hrun, hseq, -⟩ := String_ctor_seqs hoff ha hd hs
    (by rw [hk]; exact Int.ofNat_nonneg _) (by rw [hk]; simpa using hav)
  rw [hk, Int.toNat_ofNat, List.take_length] at hseq
  refine ⟨_, m', hrun, ?_⟩
  have := print_ok hseq out []
  rw [show (Elem.shw : Char → List Char) = fun c => [c] from rfl, flatten_singletons] at this
  exact this

theorem String_round_trip_witness :
    memHello.arr 0 = some ("Hello world".toList ++ [Char.ofNat 0]) ∧
    (∀ c ∈ "Hello world".toList, c ≠ Char.ofNat 0) ∧
    ∃ str m', String_ctor ⟨0, 0⟩ memHello = .ok str m' ∧
      operator_shl m' [] str = some ([] ++ "Hello world".toList) :=
  ⟨rfl, by decide,
    String_round_trip memHello ⟨0, 0⟩ ("Hello world".toList ++ [Char.ofNat 0])
      "Hello world".toList [] [] (by decide) rfl rfl (by decide) (by decide) (by decide)⟩

/-- C9: for every list `xs` of integers, when `new` can provide `|xs|` elements,
creating a `Vector<int>` of size `|xs|`, storing `xs[i]` at each index `i`
through `operator[]` and printing with `sep` writes the decimal renderings of
`xs` in order joined by `sep`; for `1, 2, 3` and `","` that is `1,2,3`. -/
theorem create_fill_print (m : Mem Int) (xs : List Int) (out sep : List Char)
    (hav : xs.length ≤ m.avail) :
    (∃ a m1 m2, Vector.ctor (xs.length : Int) m = .ok a m1 ∧
      writeFrom a xs 0 m1 = .ok () m2 ∧
      print m2 out a sep
        = some (out ++ List.intercalate sep (xs.map (fun i => (toString i).toList)))) ∧
    List.intercalate ",".toList (([1, 2, 3] : List Int).map (fun i => (toString i).toList))
      = "1,2,3".toList := by
  constructor
  · obtain ⟨m1, hrun, hseq⟩ := ctor_seqs (T := Int) (m := m) (i := (xs.length : Int))
      (Int.ofNat_nonneg _) (by simpa using hav)
    obtain ⟨m2, hw, hseq2⟩ := writeFrom_seqs xs [] _ m1 (by simpa using hseq) (by simp)
    exact ⟨_, m1, m2, hrun, by simpa using hw, print_ok (by simpa using hseq2) out sep⟩
  · decide

theorem create_fill_print_witness :
    ([1, 2, 3] : List Int).length ≤ memE.avail ∧
    ((∃ a m1 m2, Vector.ctor (([1, 2, 3] : List Int).length : Int) memE = .ok a m1 ∧
      writeFrom a [1, 2, 3] 0 m1 = .ok () m2 ∧
      print m2 [] a ",".toList
        = some ([] ++ List.intercalate ",".toList
            (([1, 2, 3] : List Int).map (fun i => (toString i).toList)))) ∧
    List.intercalate ",".toList (([1, 2, 3] : List Int).map (fun i => (toString i).toList))
      = "1,2,3".toList) :=
  ⟨by decide, create_fill_print memE [1, 2, 3] [] ",".toList (by decide)⟩

/-- C10: representation invariant. In every memory reachable by successful
constructions, assignments, writes through `operator[]` or a mutable iterator
(and destructions), each live sequence owns a live array whose element count is
its recorded `n`, `size()` returns that count, and no other live sequence has
that array. -/
theorem reachable_length_is_buffer_count {T : Type} [Elem T] (m : Mem T)
    (hr : Reachable m) (a : Nat) (v : Vector) (hv : m.obj a = some v) :
    (∃ buf, m.arr v.p.blk = some buf ∧ (buf.length : Int) = v.n ∧
      Vector.size m a = some (buf.length : Int)) ∧
    ∀ b w, m.obj b = some w → b ≠ a → w.p.blk ≠ v.p.blk := by
  have hi := reachable_inv hr
  obtain ⟨buf, hs⟩ := hi.1 a v hv
  exact ⟨⟨buf, hs.2.2.1, hs.2.2.2, hs.size_len⟩, fun b w hw hne => hi.2 b a w v hw hv hne⟩

theorem reachable_length_is_buffer_count_witness :
    Reachable memE2 ∧ memE2.obj 0 = some ⟨⟨0, 0⟩, 2⟩ ∧
    ((∃ buf, memE2.arr 0 = some buf ∧ (buf.length : Int) = 2 ∧
      Vector.size memE2 0 = some (buf.length : Int)) ∧
    ∀ b w, memE2.obj b = some w → b ≠ 0 → w.p.blk ≠ 0) :=
  ⟨Reachable.create 2 0 (Reachable.init memE rfl) rfl, rfl,
    reachable_length_is_buffer_count memE2 (Reachable.create 2 0 (Reachable.init memE rfl) rfl)
      0 ⟨⟨0, 0⟩, 2⟩ rfl⟩

/-- C11: allocation tracking. Constructing a `String` from a C string and then
destroying it runs `new` exactly once and `delete[]` exactly once, on the array
that `new` returned: that array did not exist before, is owned by the `String`
in between and is released afterwards; no other array is touched, what `new`
can provide is back to what it was, the object is gone, and destroying it once
more would be undefined. -/
theorem String_ctor_dtor_balanced (m : Mem Char) (cp : Ptr) (a s rest : List Char)
    (hoff : 0 ≤ cp.off) (ha : m.arr cp.blk = some a)
    (hd : a.drop cp.off.toNat = s ++ Char.ofNat 0 :: rest)
    (hs : ∀ c ∈ s, c ≠ Char.ofNat 0)
    (h0 : 0 ≤ toInt32 s.length) (hav : (toInt32 s.length).toNat ≤ m.avail) :
    ∃ str m1 m2 b, String_ctor cp m = .ok str m1 ∧ Vector.dtor str m1 = .ok () m2 ∧
      m.arrays[b]? = none ∧
      Vector.begin m1 str = some (Ptr.mk b 0) ∧ (m1.arr b).isSome ∧
      m1.news = m.news + 1 ∧ m1.deletes = m.deletes ∧
      m2.news = m.news + 1 ∧ m2.deletes = m.deletes + 1 ∧
      m2.arrays[b]? = some none ∧
      (∀ c, c ≠ b → m2.arrays[c]? = m.arrays[c]?) ∧
      m2.avail = m.avail ∧
      m2.obj str = none ∧ Vector.dtor str m2 = .ub := by
  have hrun := String_ctor_mem hoff ha hd hs h0 hav
  obtain ⟨-, m1, hrun1, hseq, -⟩ := String_ctor_seqs hoff ha hd hs h0 hav
  have hinj := hrun1.symm.trans hrun
  injection hinj with _ hm1
  obtain ⟨m2, hdt, hgone, harr, havl, hnews, hdel⟩ := dtor_mem hseq
  have hk := toInt32_le s.length
  have h1a : m1.arrays = m.arrays ++ [some (s.take (toInt32 s.length).toNat)] := by rw [hm1]
  have h1v : m1.avail = m.avail - (toInt32 s.length).toNat := by rw [hm1]
  have h1n : m1.news = m.news + 1 := by rw [hm1]
  have h1d : m1.deletes = m.deletes := by rw [hm1]
  have hset : m2.arrays = (m.arrays ++ [some (s.take (toInt32 s.length).toNat)]).set
      m.arrays.length none := by rw [harr, h1a]
  refine ⟨_, m1, m2, m.arrays.length, hrun1, hdt, by simp, hseq.begin_eq, ?_, h1n, h1d,
    by rw [hnews, h1n], by rw [hdel, h1d], by rw [hset]; simp, ?_, ?_, hgone, dtor_dead hgone⟩
  · rw [hseq.2.2.1]
    rfl
  · intro c hc
    rw [hset, List.getElem?_set_ne (Ne.symm hc)]
    by_cases hlt : c < m.arrays.length
    · rw [List.getElem?_append_left hlt]
    · rw [List.getElem?_eq_none (by simp; omega), List.getElem?_eq_none (by omega)]
  · rw [havl, h1v, List.length_take]
    omega

theorem String_ctor_dtor_balanced_witness :
    memHello.arr 0 = some ("Hello world".toList ++ [Char.ofNat 0]) ∧
    (0 : Int) ≤ toInt32 "Hello world".toList.length ∧
    (toInt32 "Hello world".toList.length).toNat ≤ memHello.avail ∧
    ∃ str m1 m2 b, String_ctor ⟨0, 0⟩ memHello = .ok str m1 ∧ Vector.dtor str m1 = .ok () m2 ∧
      memHello.arrays[b]? = none ∧
      Vector.begin m1 str = some (Ptr.mk b 0) ∧ (m1.arr b).isSome ∧
      m1.news = memHello.news + 1 ∧ m1.deletes = memHello.deletes ∧
      m2.news = memHello.news + 1 ∧ m2.deletes = memHello.deletes + 1 ∧
      m2.arrays[b]? = some none ∧
      (∀ c, c ≠ b → m2.arrays[c]? = memHello.arrays[c]?) ∧
      m2.avail = memHello.avail ∧
      m2.obj str = none ∧ Vector.dtor str m2 = .ub :=
  ⟨rfl, by decide, by decide,
    String_ctor_dtor_balanced memHello ⟨0, 0⟩ ("Hello world".toList ++ [Char.ofNat 0])
      "Hello world".toList [] (by decide) rfl rfl (by decide) (by decide) (by decide)⟩

/-- C12: chained assignment. In a memory that satisfies the representation
invariant, for pairwise distinct live objects `a`, `b`, `c`, when `new` can meet
both requests, `b = c` returns `b` and `a = b = c` returns `a`; afterwards `a`
and `b` both have the length of `c` and, at every index, the element of `c`,
and `c` keeps its length and elements. -/
theorem chain_assign {T : Type} (m : Mem T) (a b c : Nat) (va vb vc : Vector)
    (hi : Inv m) (ha : m.obj a = some va) (hb : m.obj b = some vb) (hc : m.obj c = some vc)
    (hab : a ≠ b) (hbc : b ≠ c) (hac : a ≠ c)
    (hav1 : vc.n.toNat ≤ m.avail + vb.n.toNat)
    (hav2 : vc.n.toNat ≤ m.avail + vb.n.toNat - vc.n.toNat + va.n.toNat) :
    (∃ m1, Vector.assign b c m = .ok b m1) ∧
    ∃ m', chainAssign a b c m = .ok a m' ∧
      Vector.size m c = some vc.n ∧
      Vector.size m' a = Vector.size m c ∧ Vector.size m' b = Vector.size m c ∧
      Vector.size m' c = Vector.size m c ∧
      (∀ i : Int, 0 ≤ i → i < vc.n →
        (Vector.read m c i).isSome ∧ Vector.read m' a i = Vector.read m c i ∧
        Vector.read m' b i = Vector.read m c i) ∧
      ∀ j : Int, Vector.read m' c j = Vector.read m c j := by
  obtain ⟨ba, hsa⟩ := hi.1 a va ha
  obtain ⟨bb, hsb⟩ := hi.1 b vb hb
  obtain ⟨bc, hsc⟩ := hi.1 c vc hc
  have hblk_bc := hi.2 b c vb vc hb hc hbc
  have hblk_ab := hi.2 a b va vb ha hb hab
  have hblk_ac := hi.2 a c va vc ha hc hac
  have hna := hsa.toNat_n
  have hnb := hsb.toNat_n
  have hnc := hsc.toNat_n
  obtain ⟨m1, hrun1, hsb1, hav1', hlen1, hfr1⟩ :=
    assign_frame hsb hsc (Ne.symm hbc) hblk_bc (by omega)
  have hsa1 := hfr1 a va ba hsa hab hblk_ab
  have hsc1 := hfr1 c vc bc hsc (Ne.symm hbc) (Ne.symm hblk_bc)
  have hla := lt_of_get (arr_iff.mp hsa.2.2.1)
  have hlc := lt_of_get (arr_iff.mp hsc.2.2.1)
  have hblk2 : va.p.blk ≠ (Vector.mk ⟨m.arrays.length, 0⟩ vc.n).p.blk := by
    show va.p.blk ≠ m.arrays.length
    omega
  obtain ⟨m2, hrun2, hsa2, -, -, hfr2⟩ :=
    assign_frame hsa1 hsb1 (Ne.symm hab) hblk2 (by rw [hav1']; omega)
  have hsb2 := hfr2 b _ bc hsb1 (Ne.symm hab) (Ne.symm hblk2)
  have hsc2 := hfr2 c vc bc hsc1 (Ne.symm hac) (Ne.symm hblk_ac)
  refine ⟨⟨m1, hrun1⟩, m2, ?_, hsc.size_eq, ?_, ?_, ?_, ?_, fun j => hsc.read_congr hsc2 j⟩
  · unfold chainAssign
    rw [bind_ok hrun1]
    exact hrun2
  · rw [hsa2.size_len, hsc.size_len]
  · rw [hsb2.size_len, hsc.size_len]
  · rw [hsc2.size_len, hsc.size_len]
  · intro i h0 hlt
    obtain ⟨x, _, hx⟩ := hsc.read_get h0 (by rw [hsc.2.2.2]; exact hlt)
    exact ⟨by simp [hx], hsc.read_congr hsa2 i, hsc.read_congr hsb2 i⟩

theorem chain_assign_witness :
    Inv memD ∧ memD.obj 0 = some ⟨⟨0, 0⟩, 2⟩ ∧ memD.obj 1 = some ⟨⟨1, 0⟩, 3⟩ ∧
    memD.obj 2 = some ⟨⟨2, 0⟩, 1⟩ ∧
    ((∃ m1, Vector.assign 1 2 memD = .ok 1 m1) ∧
    ∃ m', chainAssign 0 1 2 memD = .ok 0 m' ∧
      Vector.size memD 2 = some 1 ∧
      Vector.size m' 0 = Vector.size memD 2 ∧ Vector.size m' 1 = Vector.size memD 2 ∧
      Vector.size m' 2 = Vector.size memD 2 ∧
      (∀ i : Int, 0 ≤ i → i < 1 →
        (Vector.read memD 2 i).isSome ∧ Vector.read m' 0 i = Vector.read memD 2 i ∧
        Vector.read m' 1 i = Vector.read memD 2 i) ∧
      ∀ j : Int, Vector.read m' 2 j = Vector.read memD 2 j) :=
  ⟨inv_memD, rfl, rfl, rfl,
    chain_assign memD 0 1 2 ⟨⟨0, 0⟩, 2⟩ ⟨⟨1, 0⟩, 3⟩ ⟨⟨2, 0⟩, 1⟩ inv_memD rfl rfl rfl
      (by decide) (by decide) (by decide) (by decide) (by decide)⟩

/-- C13: traversal. For every sequence, `end() - begin()` is `size()`, and the
traversal from `begin()` to `end()` (the two overloads return the same
pointers) visits exactly `size()` elements, the `k`-th being `v[k]`; it leaves
the memory as it was, and a second traversal visits the same elements. -/
theorem traverse_in_storage_order {T : Type} (m : Mem T) (s : Nat) (v : Vector)
    (buf : List T) (hs : IsSeq m s v buf) :
    (∃ first last, Vector.begin m s = some first ∧ Vector.end_ m s = some last ∧
      Ptr.sub last first = Vector.size m s ∧ Vector.size m s = some (buf.length : Int)) ∧
    ∃ xs, Vector.traverse s m = .ok xs m ∧
      (xs.length : Int) = v.n ∧ Vector.size m s = some (xs.length : Int) ∧
      (∀ k : Nat, k < xs.length → xs[k]? = Vector.read m s (k : Int)) ∧
      (Vector.traverse s >>= fun ys => Vector.traverse s >>= fun zs => pure (ys, zs)) m
        = .ok (xs, xs) m := by
  have ht := traverse_ok hs
  refine ⟨⟨_, _, hs.begin_eq, hs.end_eq, ?_, hs.size_len⟩, buf, ht, hs.2.2.2, hs.size_len,
    fun k _ => (hs.read_eq k).symm, ?_⟩
  · rw [hs.size_len]
    simp [Ptr.sub]
  · rw [bind_ok ht, bind_ok ht, pure_run]

theorem traverse_in_storage_order_witness :
    IsSeq memB 1 ⟨⟨1, 0⟩, 3⟩ [7, 8, 9] ∧
    ((∃ first last, Vector.begin memB 1 = some first ∧ Vector.end_ memB 1 = some last ∧
      Ptr.sub last first = Vector.size memB 1 ∧
      Vector.size memB 1 = some (([7, 8, 9] : List Int).length : Int)) ∧
    ∃ xs, Vector.traverse 1 memB = .ok xs memB ∧
      (xs.length : Int) = 3 ∧ Vector.size memB 1 = some (xs.length : Int) ∧
      (∀ k : Nat, k < xs.length → xs[k]? = Vector.read memB 1 (k : Int)) ∧
      (Vector.traverse 1 >>= fun ys => Vector.traverse 1 >>= fun zs => pure (ys, zs)) memB
        = .ok (xs, xs) memB) :=
  ⟨⟨rfl, rfl, rfl, rfl⟩,
    traverse_in_storage_order memB 1 ⟨⟨1, 0⟩, 3⟩ [7, 8, 9] ⟨rfl, rfl, rfl, rfl⟩⟩

/-- C15, as stated, fails: `operator=` between two distinct live sequences ends
with `bad_alloc` when `new` cannot provide the source's length. -/
theorem assign_signals_bad_alloc :
    Inv memC ∧ memC.obj 0 = some ⟨⟨0, 0⟩, 2⟩ ∧ memC.obj 1 = some ⟨⟨1, 0⟩, 3⟩ ∧
    ∃ m', Vector.assign 0 1 memC = .throw .bad_alloc m' :=
  ⟨inv_memC, rfl, rfl, _, rfl⟩

/-- C15 (amended): besides the constructors, only `operator=` between distinct
sequences can end with `bad_alloc`, and it does exactly when its `new` cannot be
met. For every sequence, `size()`, `v[i]` and `v[i] = x` at an index in range,
the traversal, `print` and self-assignment complete without any failure. -/
theorem only_allocating_operations_fail {T : Type} [Elem T] (m : Mem T) (s : Nat)
    (v : Vector) (buf : List T) (out sep : List Char) (hs : IsSeq m s v buf) :
    (Vector.size m s).isSome ∧
    (∀ i : Int, 0 ≤ i → i < v.n →
      (Vector.read m s i).isSome ∧ ∀ x : T, ∃ m', Vector.write s i x m = .ok () m') ∧
    (∃ xs, Vector.traverse s m = .ok xs m) ∧
    (print m out s sep).isSome ∧
    Vector.assign s s m = .ok s m ∧
    ∀ o vo, Inv m → m.obj o = some vo → o ≠ s →
      (vo.n.toNat ≤ m.avail + v.n.toNat ∧ ∃ m', Vector.assign s o m = .ok s m') ∨
      (m.avail + v.n.toNat < vo.n.toNat ∧ ∃ m', Vector.assign s o m = .throw .bad_alloc m') := by
  refine ⟨by simp [hs.size_eq], ?_, ⟨buf, traverse_ok hs⟩, by simp [print_ok hs out sep],
    by simp [Vector.assign, bind, Prog.bind, pure], ?_⟩
  · intro i h0 hlt
    have hlt2 : i < (buf.length : Int) := by rw [hs.2.2.2]; exact hlt
    obtain ⟨x, _, hx⟩ := hs.read_get h0 hlt2
    refine ⟨by simp [hx], fun y => ?_⟩
    obtain ⟨m', hw, -⟩ := write_seqs hs h0 hlt2 y
    exact ⟨m', hw⟩
  · intro o vo hi ho hne
    obtain ⟨bo, hso⟩ := hi.1 o vo ho
    have hblk := hi.2 s o v vo hs.1 ho (Ne.symm hne)
    have hn := hs.toNat_n
    have hno := hso.toNat_n
    by_cases hav : vo.n.toNat ≤ m.avail + v.n.toNat
    · exact Or.inl ⟨hav, _, assign_ok hs hso hne hblk (by omega)⟩
    · exact Or.inr ⟨by omega, _, assign_throw hs hso hne (by omega)⟩

theorem only_allocating_operations_fail_witness :
    IsSeq memC 0 ⟨⟨0, 0⟩, 2⟩ [10, 20] ∧
    ((Vector.size memC 0).isSome ∧
    (∀ i : Int, 0 ≤ i → i < 2 →
      (Vector.read memC 0 i).isSome ∧ ∀ x : Int, ∃ m', Vector.write 0 i x memC = .ok () m') ∧
    (∃ xs, Vector.traverse 0 memC = .ok xs memC) ∧
    (print memC [] 0 ",".toList).isSome ∧
    Vector.assign 0 0 memC = .ok 0 memC ∧
    ∀ o vo, Inv memC → memC.obj o = some vo → o ≠ 0 →
      (vo.n.toNat ≤ memC.avail + (2 : Int).toNat ∧ ∃ m', Vector.assign 0 o memC = .ok 0 m') ∨
      (memC.avail + (2 : Int).toNat < vo.n.toNat ∧
        ∃ m', Vector.assign 0 o memC = .throw .bad_alloc m')) :=
  ⟨⟨rfl, rfl, rfl, rfl⟩,
    only_allocating_operations_fail memC 0 ⟨⟨0, 0⟩, 2⟩ [10, 20] [] ",".toList
      ⟨rfl, rfl, rfl, rfl⟩⟩

/-- C16: `operator=` is not atomic when its `new` fails. For distinct live
sequences where `new` cannot provide the source's length even after the release
(so the lengths differ), the assignment ends with `bad_alloc` having run
`delete[]` and no `new`: the target's old array is released, its `p` still
points there, its recorded length is already the source's, so it no longer owns
an array of its length and the representation invariant is broken. -/
theorem assign_not_atomic {T : Type} (m : Mem T) (self other : Nat) (vs vo : Vector)
    (hi : Inv m) (hs : m.obj self = some vs) (ho : m.obj other = some vo)
    (hne : other ≠ self) (hav : m.avail + vs.n.toNat < vo.n.toNat) :
    vs.n ≠ vo.n ∧
    ∃ m', Vector.assign self other m = .throw .bad_alloc m' ∧
      (m.arr vs.p.blk).isSome ∧ m'.arr vs.p.blk = none ∧
      m'.deletes = m.deletes + 1 ∧ m'.news = m.news ∧
      Vector.size m self = some vs.n ∧ Vector.size m' self = some vo.n ∧
      m'.obj self = some ⟨vs.p, vo.n⟩ ∧
      (¬ ∃ w buf, IsSeq m' self w buf) ∧ ¬ Inv m' := by
  obtain ⟨bs, hss⟩ := hi.1 self vs hs
  obtain ⟨bo, hso⟩ := hi.1 other vo ho
  have hn := hss.toNat_n
  have hno := hso.toNat_n
  have hrun := assign_throw hss hso hne (by omega)
  have hsl := lt_of_get (obj_iff.mp hs)
  have hbl := lt_of_get (arr_iff.mp hss.2.2.1)
  have hobj : Mem.obj { m with
        arrays := m.arrays.set vs.p.blk none
        objs := m.objs.set self (some ⟨vs.p, vo.n⟩)
        avail := m.avail + bs.length
        deletes := m.deletes + 1 } self = some ⟨vs.p, vo.n⟩ := by
    simp [Mem.obj, List.getElem?_set_self hsl]
  have harr : Mem.arr { m with
        arrays := m.arrays.set vs.p.blk none
        objs := m.objs.set self (some ⟨vs.p, vo.n⟩)
        avail := m.avail + bs.length
        deletes := m.deletes + 1 } vs.p.blk = none := by
    simp [Mem.arr, List.getElem?_set_self hbl]
  have hnoseq : ¬ ∃ w buf, IsSeq { m with
        arrays := m.arrays.set vs.p.blk none
        objs := m.objs.set self (some ⟨vs.p, vo.n⟩)
        avail := m.avail + bs.length
        deletes := m.deletes + 1 } self w buf := by
    rintro ⟨w, buf, h1, -, h3, -⟩
    rw [hobj] at h1
    cases h1
    rw [harr] at h3
    cases h3
  refine ⟨?_, _, hrun, by simp [hss.2.2.1], harr, rfl, rfl, hss.size_eq, ?_, hobj, hnoseq, ?_⟩
  · intro h
    rw [h] at hav
    omega
  · simp [Vector.size, hobj]
  · intro hinv
    obtain ⟨buf, hb⟩ := hinv.1 self _ hobj
    exact hnoseq ⟨_, buf, hb⟩

theorem assign_not_atomic_witness :
    Inv memC ∧ memC.obj 0 = some ⟨⟨0, 0⟩, 2⟩ ∧ memC.obj 1 = some ⟨⟨1, 0⟩, 3⟩ ∧
    ((2 : Int) ≠ 3 ∧
    ∃ m', Vector.assign 0 1 memC = .throw .bad_alloc m' ∧
      (memC.arr 0).isSome ∧ m'.arr 0 = none ∧
      m'.deletes = memC.deletes + 1 ∧ m'.news = memC.news ∧
      Vector.size memC 0 = some 2 ∧ Vector.size m' 0 = some 3 ∧
      m'.obj 0 = some ⟨⟨0, 0⟩, 3⟩ ∧
      (¬ ∃ w buf, IsSeq m' 0 w buf) ∧ ¬ Inv m') :=
  ⟨inv_memC, rfl, rfl,
    assign_not_atomic memC 0 1 ⟨⟨0, 0⟩, 2⟩ ⟨⟨1, 0⟩, 3⟩ inv_memC rfl rfl (by decide)
      (by decide)⟩

/-- C17: indexed write then read. For every sequence, index `i` in range and
value `x`, `v[i] = x` succeeds; afterwards `v[i]` is `x`, `size()` is unchanged
and `v[j]` is unchanged at every other index. -/
theorem write_then_read {T : Type} (m : Mem T) (s : Nat) (v : Vector) (buf : List T)
    (i : Int) (x : T) (hs : IsSeq m s v buf) (h0 : 0 ≤ i) (hlt : i < v.n) :
    ∃ m', Vector.write s i x m = .ok () m' ∧
      Vector.read m' s i = some x ∧
      Vector.size m' s = Vector.size m s ∧ Vector.size m s = some v.n ∧
      ∀ j : Int, j ≠ i → Vector.read m' s j = Vector.read m s j := by
  have hlt2 : i < (buf.length : Int) := by rw [hs.2.2.2]; exact hlt
  have hnat : i.toNat < buf.length := by omega
  obtain ⟨m', hw, hs', -⟩ := write_seqs hs h0 hlt2 x
  refine ⟨m', hw, ?_, ?_, hs.size_eq, ?_⟩
  · rw [hs'.read_int, if_neg (by omega)]
    simp [hnat]
  · rw [hs'.size_eq, hs.size_eq]
  · intro j hj
    rw [hs'.read_int, hs.read_int]
    by_cases hneg : j < 0
    · rw [if_pos hneg, if_pos hneg]
    · rw [if_neg hneg, if_neg hneg, List.getElem?_set_ne (by omega)]

theorem write_then_read_witness :
    IsSeq memB 1 ⟨⟨1, 0⟩, 3⟩ [7, 8, 9] ∧ (0 : Int) ≤ 2 ∧ (2 : Int) < 3 ∧
    ∃ m', Vector.write 1 2 55 memB = .ok () m' ∧
      Vector.read m' 1 2 = some 55 ∧
      Vector.size m' 1 = Vector.size memB 1 ∧ Vector.size memB 1 = some 3 ∧
      ∀ j : Int, j ≠ 2 → Vector.read m' 1 j = Vector.read memB 1 j :=
  ⟨⟨rfl, rfl, rfl, rfl⟩, by decide, by decide,
    write_then_read memB 1 ⟨⟨1, 0⟩, 3⟩ [7, 8, 9] 2 55 ⟨rfl, rfl, rfl, rfl⟩ (by decide)
      (by decide)⟩

/-- C18: narrowing in `String(const char*)`. The `size_t` length `L` found by
`strlen` reaches `Vector<char>(int)` as a 32-bit signed value `k`: when `k ≥ 0`
and `new` can provide `k` elements a `String` is constructed, its length is `k`
and its elements are the first `k` chars of the source; otherwise the
construction ends with `bad_alloc`. The length of a constructed `String` is `L`
exactly when `L ≤ 2^31 - 1`; for `L ≥ 2^31`, `k` is the signed 32-bit number
congruent to `L` modulo `2^32`, which differs from `L`. -/
theorem String_ctor_narrows_length (m : Mem Char) (cp : Ptr) (a s rest : List Char)
    (hoff : 0 ≤ cp.off) (ha : m.arr cp.blk = some a)
    (hd : a.drop cp.off.toNat = s ++ Char.ofNat 0 :: rest)
    (hs : ∀ c ∈ s, c ≠ Char.ofNat 0) :
    strlen m cp = some s.length ∧
    (0 ≤ toInt32 s.length → (toInt32 s.length).toNat ≤ m.avail →
      ∃ str m', String_ctor cp m = .ok str m' ∧
        Vector.size m' str = some (toInt32 s.length) ∧
        (∃ v, IsSeq m' str v (s.take (toInt32 s.length).toNat)) ∧
        (Vector.size m' str = some (s.length : Int) ↔ s.length ≤ 2 ^ 31 - 1)) ∧
    (toInt32 s.length < 0 ∨ m.avail < (toInt32 s.length).toNat →
      String_ctor cp m = .throw .bad_alloc m) ∧
    (∀ str m', String_ctor cp m = .ok str m' →
      Vector.size m' str = some (toInt32 s.length) ∧
      (Vector.size m' str = some (s.length : Int) ↔ s.length ≤ 2 ^ 31 - 1)) ∧
    (s.length ≤ 2 ^ 31 - 1 → toInt32 s.length = (s.length : Int)) ∧
    (2 ^ 31 ≤ s.length →
      toInt32 s.length ≠ (s.length : Int) ∧
      -(2 ^ 31) ≤ toInt32 s.length ∧ toInt32 s.length < 2 ^ 31 ∧
      ((s.length : Int) - toInt32 s.length) % 2 ^ 32 = 0) := by
  have hlen : strlen m cp = some s.length := by
    cases cp with
    | mk cb off =>
      simp only at hoff ha hd
      have hcast : off = ((off.toNat : Nat) : Int) := by omega
      rw [hcast]
      exact strlen_ok (arr_iff.mp ha) hd hs
  have hiff : ∀ (str : Nat) (m' : Mem Char), Vector.size m' str = some (toInt32 s.length) →
      (Vector.size m' str = some (s.length : Int) ↔ s.length ≤ 2 ^ 31 - 1) := by
    intro str m' hsz
    rw [hsz, ← toInt32_eq_iff]
    constructor
    · intro h
      exact Option.some.inj h
    · intro h
      rw [h]
  refine ⟨hlen, ?_, fun h => String_ctor_throw hoff ha hd hs h, ?_,
    fun h => (toInt32_eq_iff _).mpr h, ?_⟩
  · intro h0 hav
    obtain ⟨-, m', hrun, hseq, -⟩ := String_ctor_seqs hoff ha hd hs h0 hav
    exact ⟨_, m', hrun, hseq.size_eq, ⟨_, hseq⟩, hiff _ m' hseq.size_eq⟩
  · intro str m' hrun
    have hsz := String_ctor_size hoff ha hd hs hrun
    exact ⟨hsz, hiff str m' hsz⟩
  · intro h
    have hr := toInt32_range s.length
    refine ⟨fun hc => ?_, hr.1, hr.2.1, hr.2.2⟩
    have := (toInt32_eq_iff s.length).mp hc
    omega

theorem String_ctor_narrows_length_witness :
    memBig.arr 0 = some (bigSrc ++ [Char.ofNat 0]) ∧ (∀ c ∈ bigSrc, c ≠ Char.ofNat 0) ∧
    bigSrc.length = 2 ^ 32 ∧ toInt32 bigSrc.length = 0 ∧
    (0 : Int) ≤ toInt32 bigSrc.length ∧ (toInt32 bigSrc.length).toNat ≤ memBig.avail ∧
    2 ^ 31 ≤ bigSrc.length ∧
    (∃ str m', String_ctor ⟨0, 0⟩ memBig = .ok str m' ∧
        Vector.size m' str = some (toInt32 bigSrc.length) ∧
        (∃ v, IsSeq m' str v (bigSrc.take (toInt32 bigSrc.length).toNat)) ∧
        (Vector.size m' str = some (bigSrc.length : Int) ↔ bigSrc.length ≤ 2 ^ 31 - 1)) ∧
    (toInt32 bigSrc.length ≠ (bigSrc.length : Int) ∧
      -(2 ^ 31) ≤ toInt32 bigSrc.length ∧ toInt32 bigSrc.length < 2 ^ 31 ∧
      ((bigSrc.length : Int) - toInt32 bigSrc.length) % 2 ^ 32 = 0) :=
  have h0 : (0 : Int) ≤ toInt32 bigSrc.length := by rw [toInt32_bigSrc]
  have hav : (toInt32 bigSrc.length).toNat ≤ memBig.avail := by
    rw [toInt32_bigSrc]
    exact Nat.zero_le _
  have hbig : 2 ^ 31 ≤ bigSrc.length := by
    rw [bigSrc_length]
    decide
  ⟨rfl, bigSrc_no_nul, bigSrc_length, toInt32_bigSrc, h0, hav, hbig,
    (String_ctor_narrows_length memBig ⟨0, 0⟩ (bigSrc ++ [Char.ofNat 0]) bigSrc []
      (le_refl _) rfl rfl bigSrc_no_nul).2.1 h0 hav,
    (String_ctor_narrows_length memBig ⟨0, 0⟩ (bigSrc ++ [Char.ofNat 0]) bigSrc []
      (le_refl _) rfl rfl bigSrc_no_nul).2.2.2.2.2 hbig⟩

/-- C19: the demo `main`. With the literal `"Hello world"` at `lit`: when `new`
can provide its 11 chars, the construction of the greeting succeeds and `main`
writes `Hello world` and a newline and returns 0; when it cannot, the
construction ends with `bad_alloc` and `main` writes `Out of memory` and a
newline and returns 0. Whatever the construction is, a `bad_alloc` from it gives
`Out of memory`, a newline and the return of 0, and any other exception from it
gives `Unknown exception`, a newline and that same exception thrown out of
`main` in place of a return. -/
theorem main_classifies_failures (m : Mem Char) (lit : Ptr) (a rest out : List Char)
    (hoff : 0 ≤ lit.off) (ha : m.arr lit.blk = some a)
    (hd : a.drop lit.off.toNat = "Hello world".toList ++ Char.ofNat 0 :: rest) :
    (11 ≤ m.avail →
      (∃ g m1, String_ctor lit m = .ok g m1) ∧
      ∃ m', main lit out m
        = (out ++ "Hello world".toList ++ [Char.ofNat 10], .ok 0 m')) ∧
    (m.avail < 11 →
      String_ctor lit m = .throw .bad_alloc m ∧
      main lit out m = (out ++ "Out of memory".toList ++ [Char.ofNat 10], .ok 0 m)) ∧
    (∀ (construct : Prog Char Nat) (m1 : Mem Char), construct m = .throw .bad_alloc m1 →
      main_with construct out m
        = (out ++ "Out of memory".toList ++ [Char.ofNat 10], .ok 0 m1)) ∧
    (∀ (construct : Prog Char Nat) (e : Exn) (m1 : Mem Char), construct m = .throw e m1 →
      e ≠ .bad_alloc →
      main_with construct out m
        = (out ++ "Unknown exception".toList ++ [Char.ofNat 10], .throw e m1)) := by
  have hs : ∀ c ∈ "Hello world".toList, c ≠ Char.ofNat 0 := by decide
  have h11 : "Hello world".toList.length = 11 := by decide
  have hk : toInt32 "Hello world".toList.length = 11 := by
    rw [h11]
    decide
  refine ⟨?_, ?_, fun construct m1 hc => main_with_bad_alloc out hc,
    fun construct e m1 hc he => main_with_other out hc he⟩
  · intro hav
    obtain ⟨-, m1, hrun, hseq, -⟩ := String_ctor_seqs hoff ha hd hs
      (by rw [hk]; decide) (by rw [hk]; exact hav)
    have htake : List.take (toInt32 "Hello world".toList.length).toNat "Hello world".toList
        = "Hello world".toList := by
      rw [hk]
      decide
    rw [htake] at hseq
    obtain ⟨m2, hdt, -⟩ := dtor_mem hseq
    exact ⟨⟨_, m1, hrun⟩, m2, main_with_ok hrun (shl_seq hseq out) hdt⟩
  · intro hav
    have hthrow := String_ctor_throw hoff ha hd hs (Or.inr (by rw [hk]; exact hav))
    exact ⟨hthrow, main_with_bad_alloc out hthrow⟩

theorem main_classifies_failures_witness :
    memHello.arr 0 = some ("Hello world".toList ++ [Char.ofNat 0]) ∧
    ((11 ≤ memHello.avail →
      (∃ g m1, String_ctor ⟨0, 0⟩ memHello = .ok g m1) ∧
      ∃ m', main ⟨0, 0⟩ [] memHello
        = ([] ++ "Hello world".toList ++ [Char.ofNat 10], .ok 0 m')) ∧
    (memHello.avail < 11 →
      String_ctor ⟨0, 0⟩ memHello = .throw .bad_alloc memHello ∧
      main ⟨0, 0⟩ [] memHello
        = ([] ++ "Out of memory".toList ++ [Char.ofNat 10], .ok 0 memHello)) ∧
    (∀ (construct : Prog Char Nat) (m1 : Mem Char),
      construct memHello = .throw .bad_alloc m1 →
      main_with construct [] memHello
        = ([] ++ "Out of memory".toList ++ [Char.ofNat 10], .ok 0 m1)) ∧
    (∀ (construct : Prog Char Nat) (e : Exn) (m1 : Mem Char),
      construct memHello = .throw e m1 → e ≠ .bad_alloc →
      main_with construct [] memHello
        = ([] ++ "Unknown exception".toList ++ [Char.ofNat 10], .throw e m1))) :=
  ⟨rfl,
    main_classifies_failures memHello ⟨0, 0⟩ ("Hello world".toList ++ [Char.ofNat 0]) [] []
      (by decide) rfl rfl⟩

end Misc1
